import Mathlib

/-!
Verification of an open-addressing hash table (`OpenAddressingHashTable.h`,
`Bucket.h`, `LinearProbing.h`, `ProbingStrategy.h`).

The C++ template `OpenAddressingHashTable<Key, T, Hash, KeyEqual,
ProbingStrategy, AllowDuplicates>` is embedded shallowly: buckets become an
inductive slot type, the bucket array a `List`, `std::size_t` values `Nat`
(with the `static_cast<size_type>(-1)` sentinel written out explicitly), the
`float` load factors exact rationals, and the pluggable hash / probing
strategy a record of functions.  `KeyEqual` is the default
`std::equal_to<Key>`, embedded as decidable equality on `Key`.
-/

set_option maxHeartbeats 1000000

namespace OpenAddr

/-- Slot lifecycle states with payload, from `Bucket.h`: `EMPTY`, `OCCUPIED`
(storing a constructed value), `DELETED` (tombstone). -/
inductive Bucket (ν : Type) where
  | empty : Bucket ν
  | occupied : ν → Bucket ν
  | deleted : Bucket ν
  deriving DecidableEq

/-- `Bucket::is_empty`. -/
def Bucket.is_empty {ν : Type} : Bucket ν → Bool
  | .empty => true
  | _ => false

/-- `Bucket::is_occupied`. -/
def Bucket.is_occupied {ν : Type} : Bucket ν → Bool
  | .occupied _ => true
  | _ => false

/-- `Bucket::is_deleted`. -/
def Bucket.is_deleted {ν : Type} : Bucket ν → Bool
  | .deleted => true
  | _ => false

/-- Hash functor together with a probing strategy: `_hash` plus
`IProbingStrategy::probe(key, hash, attempt, capacity)`. -/
structure HashConfig (Key : Type) where
  hash : Key → Nat
  probe : Key → Nat → Nat → Nat → Nat

/-- The table state: `_buckets`, `_size`, `_max_load_factor`.  Values are
the map case `value_type = std::pair<const Key, T>`. -/
structure Table (Key Val : Type) where
  buckets : List (Bucket (Key × Val))
  size : Nat
  max_load_factor : ℚ
  deriving DecidableEq

/-- `static_cast<size_type>(-1)` for a 64-bit `std::size_t`. -/
def sizeTMax : Nat := 2 ^ 64 - 1

/-- `LinearProbing::probe`: `(hash + attempt) % capacity`, with the default
`std::hash` on `Nat` taken as the identity. -/
def linearCfg : HashConfig Nat :=
  { hash := fun k => k, probe := fun _ h a c => (h + a) % c }

/-- The probing strategy returns an index below `capacity` (the contract
stated for `IProbingStrategy::probe`). -/
def ProbeBounded {Key : Type} (cfg : HashConfig Key) : Prop :=
  ∀ k h a c, 0 < c → cfg.probe k h a c < c

/-- For attempts `0 .. capacity-1` the probe sequence visits every index
(the full-permutation requirement stated for the probing family). -/
def ProbeCover {Key : Type} (cfg : HashConfig Key) : Prop :=
  ∀ k h c j, j < c → ∃ a, a < c ∧ cfg.probe k h a c = j

/-- Loop body of `find_index`: iterate `i` over the remaining attempt
numbers; an `EMPTY` slot ends the search with `capacity`, an `OCCUPIED`
slot with an equal key returns its index, otherwise probing continues. -/
def findIndexGo {Key Val : Type} [DecidableEq Key] (cfg : HashConfig Key)
    (bs : List (Bucket (Key × Val))) (k : Key) (h cap : Nat) : List Nat → Nat
  | [] => cap
  | a :: rest =>
    match bs.getD (cfg.probe k h a cap) .empty with
    | .empty => cap
    | .occupied e => if e.1 = k then cfg.probe k h a cap else findIndexGo cfg bs k h cap rest
    | .deleted => findIndexGo cfg bs k h cap rest

/-- `find_index` on a bucket array: empty array returns
`static_cast<size_type>(-1)`; otherwise the primary hash is computed once
and at most `capacity` attempts are probed. -/
def find_index_bs {Key Val : Type} [DecidableEq Key] (cfg : HashConfig Key)
    (bs : List (Bucket (Key × Val))) (k : Key) : Nat :=
  if bs.isEmpty then sizeTMax
  else findIndexGo cfg bs k (cfg.hash k) bs.length (List.range bs.length)

/-- `OpenAddressingHashTable::find_index`. -/
def find_index {Key Val : Type} [DecidableEq Key] (cfg : HashConfig Key)
    (t : Table Key Val) (k : Key) : Nat :=
  find_index_bs cfg t.buckets k

/-- Loop body of `probe_insert_slot`, carrying `first_deleted_index`
(initially `capacity`): the first `EMPTY` slot ends the walk (reusing the
first `DELETED` slot if one was seen), a `DELETED` slot is remembered once,
an `OCCUPIED` equal key either stops with `(index, false)` (no duplicates)
or is skipped (duplicates allowed); an exhausted walk falls back to the
first `DELETED` slot or fails. -/
def probeInsertGo {Key Val : Type} [DecidableEq Key] (cfg : HashConfig Key) (dup : Bool)
    (bs : List (Bucket (Key × Val))) (k : Key) (h cap : Nat) : Nat → List Nat → Nat × Bool
  | fdi, [] => if fdi ≠ cap then (fdi, true) else (cap, false)
  | fdi, a :: rest =>
    match bs.getD (cfg.probe k h a cap) .empty with
    | .empty => (if fdi ≠ cap then fdi else cfg.probe k h a cap, true)
    | .deleted =>
      probeInsertGo cfg dup bs k h cap
        (if fdi = cap then cfg.probe k h a cap else fdi) rest
    | .occupied e =>
      if e.1 = k then
        if dup then probeInsertGo cfg dup bs k h cap fdi rest
        else (cfg.probe k h a cap, false)
      else probeInsertGo cfg dup bs k h cap fdi rest

/-- `OpenAddressingHashTable::probe_insert_slot`. -/
def probe_insert_slot {Key Val : Type} [DecidableEq Key] (cfg : HashConfig Key) (dup : Bool)
    (bs : List (Bucket (Key × Val))) (k : Key) (h : Nat) : Nat × Bool :=
  probeInsertGo cfg dup bs k h bs.length bs.length (List.range bs.length)

/-- Number of `OCCUPIED` slots (what `_size` counts). -/
def countOccupied {Key Val : Type} (bs : List (Bucket (Key × Val))) : Nat :=
  bs.countP Bucket.is_occupied

/-- The occupied entries in physical slot order (what iteration visits). -/
def occupiedEntries {Key Val : Type} (bs : List (Bucket (Key × Val))) : List (Key × Val) :=
  bs.filterMap fun b => match b with | .occupied e => some e | _ => none

/-- `load_factor()`: `0.0` for an empty bucket array, otherwise the exact
value of `size / capacity`. -/
def load_factor {Key Val : Type} (t : Table Key Val) : ℚ :=
  if t.buckets.isEmpty then 0 else mkRat t.size t.buckets.length

/-- Body of the re-insertion loop of `rehash`: an `OCCUPIED` old bucket is
re-inserted via `probe_insert_slot` into the accumulated new table (written
and counted only when the probe succeeds); other buckets are dropped. -/
def rehashStep {Key Val : Type} [DecidableEq Key] (cfg : HashConfig Key) (dup : Bool)
    (acc : Table Key Val) (b : Bucket (Key × Val)) : Table Key Val :=
  match b with
  | .occupied e =>
    match probe_insert_slot cfg dup acc.buckets e.1 (cfg.hash e.1) with
    | (index, true) =>
      { acc with buckets := acc.buckets.set index (.occupied e), size := acc.size + 1 }
    | (_, false) => acc
  | _ => acc

/-- `rehash(new_capacity)`: allocate `new_capacity` fresh `EMPTY` slots,
reset `_size`, then re-insert every `OCCUPIED` entry of the old array in
physical order via `probe_insert_slot`. -/
def rehash {Key Val : Type} [DecidableEq Key] (cfg : HashConfig Key) (dup : Bool)
    (t : Table Key Val) (newCap : Nat) : Table Key Val :=
  t.buckets.foldl (rehashStep cfg dup)
    { buckets := List.replicate newCap .empty, size := 0,
      max_load_factor := t.max_load_factor }

/-- `check_load_and_rehash()`: grow to double capacity when the current
load factor exceeds the threshold. -/
def check_load_and_rehash {Key Val : Type} [DecidableEq Key] (cfg : HashConfig Key)
    (dup : Bool) (t : Table Key Val) : Table Key Val :=
  if load_factor t > t.max_load_factor then rehash cfg dup t (t.buckets.length * 2) else t

/-- `insert(key, value)`: check the load factor first, then probe for a
slot; `index == capacity` reports the `end()` iterator with `false`; on
success the slot is written and `_size` incremented.  The returned pair of
iterator and flag is embedded as the slot index plus the flag. -/
def insert {Key Val : Type} [DecidableEq Key] (cfg : HashConfig Key) (dup : Bool)
    (t : Table Key Val) (k : Key) (v : Val) : Table Key Val × Nat × Bool :=
  let t1 := check_load_and_rehash cfg dup t
  match probe_insert_slot cfg dup t1.buckets k (cfg.hash k) with
  | (index, inserted) =>
    if index = t1.buckets.length then (t1, index, false)
    else if inserted then
      ({ t1 with buckets := t1.buckets.set index (.occupied (k, v)), size := t1.size + 1 },
        index, inserted)
    else (t1, index, inserted)

/-- `emplace(args...)` constructs the value and then follows exactly the
same slot-selection and writing path as `insert`. -/
def emplace {Key Val : Type} [DecidableEq Key] (cfg : HashConfig Key) (dup : Bool)
    (t : Table Key Val) (k : Key) (v : Val) : Table Key Val × Nat × Bool :=
  let t1 := check_load_and_rehash cfg dup t
  match probe_insert_slot cfg dup t1.buckets k (cfg.hash k) with
  | (index, inserted) =>
    if index = t1.buckets.length then (t1, index, false)
    else if inserted then
      ({ t1 with buckets := t1.buckets.set index (.occupied (k, v)), size := t1.size + 1 },
        index, inserted)
    else (t1, index, inserted)

/-- `try_emplace(key, args...)`: like `insert`, and when the key is already
present the existing entry is left untouched. -/
def try_emplace {Key Val : Type} [DecidableEq Key] (cfg : HashConfig Key) (dup : Bool)
    (t : Table Key Val) (k : Key) (v : Val) : Table Key Val × Nat × Bool :=
  let t1 := check_load_and_rehash cfg dup t
  match probe_insert_slot cfg dup t1.buckets k (cfg.hash k) with
  | (index, inserted) =>
    if index = t1.buckets.length then (t1, index, false)
    else if inserted then
      ({ t1 with buckets := t1.buckets.set index (.occupied (k, v)), size := t1.size + 1 },
        index, inserted)
    else (t1, index, inserted)

/-- `insert_or_assign(key, obj)`: like `insert`, but when the key is
already present the mapped value of the existing entry is overwritten
(keeping the stored key identity). -/
def insert_or_assign {Key Val : Type} [DecidableEq Key] (cfg : HashConfig Key) (dup : Bool)
    (t : Table Key Val) (k : Key) (v : Val) : Table Key Val × Nat × Bool :=
  let t1 := check_load_and_rehash cfg dup t
  match probe_insert_slot cfg dup t1.buckets k (cfg.hash k) with
  | (index, inserted) =>
    if index = t1.buckets.length then (t1, index, false)
    else if inserted then
      ({ t1 with buckets := t1.buckets.set index (.occupied (k, v)), size := t1.size + 1 },
        index, inserted)
    else
      match t1.buckets.getD index .empty with
      | .occupied e =>
        ({ t1 with buckets := t1.buckets.set index (.occupied (e.1, v)) }, index, false)
      | _ => (t1, index, false)

/-- `erase(key)`: locate via `find_index`; when a live slot is found it is
marked `DELETED` (never `EMPTY`), `_size` is decremented and `1` returned,
otherwise `0`. -/
def erase {Key Val : Type} [DecidableEq Key] (cfg : HashConfig Key)
    (t : Table Key Val) (k : Key) : Table Key Val × Nat :=
  let index := find_index cfg t k
  if index = t.buckets.length ∨ (t.buckets.getD index .empty).is_occupied = false then (t, 0)
  else ({ t with buckets := t.buckets.set index .deleted, size := t.size - 1 }, 1)

/-- `find(key)` as the index of the returned iterator: `none` models the
`end()` iterator. -/
def find {Key Val : Type} [DecidableEq Key] (cfg : HashConfig Key)
    (t : Table Key Val) (k : Key) : Option Nat :=
  let index := find_index cfg t k
  if index = t.buckets.length ∨ (t.buckets.getD index .empty).is_occupied = false then none
  else some index

/-- Dereference of the iterator returned by `find`. -/
def findEntry {Key Val : Type} [DecidableEq Key] (cfg : HashConfig Key)
    (t : Table Key Val) (k : Key) : Option (Key × Val) :=
  (find cfg t k).bind fun i =>
    match t.buckets.getD i .empty with
    | .occupied e => some e
    | _ => none

/-- `contains(key)`. -/
def contains {Key Val : Type} [DecidableEq Key] (cfg : HashConfig Key)
    (t : Table Key Val) (k : Key) : Bool :=
  find_index cfg t k ≠ t.buckets.length
    && (t.buckets.getD (find_index cfg t k) .empty).is_occupied

/-- `count(key)`: without duplicates `contains ? 1 : 0`; with duplicates a
scan over all buckets counting occupied entries with an equal key. -/
def count {Key Val : Type} [DecidableEq Key] (cfg : HashConfig Key) (dup : Bool)
    (t : Table Key Val) (k : Key) : Nat :=
  if dup then
    t.buckets.countP fun b => match b with | .occupied e => decide (e.1 = k) | _ => false
  else if contains cfg t k then 1 else 0

/-- `equal_range(key)`, as the list of entries the returned iterator range
enumerates.  Without duplicates the range is the single found entry; with
duplicates it starts at `find(key)` and advances while the iterator (which
skips non-occupied slots) yields entries with an equal key. -/
def equal_range_entries {Key Val : Type} [DecidableEq Key] (cfg : HashConfig Key)
    (dup : Bool) (t : Table Key Val) (k : Key) : List (Key × Val) :=
  match find cfg t k with
  | none => []
  | some i =>
    if dup then
      (occupiedEntries (t.buckets.drop i)).takeWhile fun e => decide (e.1 = k)
    else
      match t.buckets.getD i .empty with
      | .occupied e => [e]
      | _ => []

/-- `max_load_factor(ml)`: arguments outside `(0, 1]` throw
`std::invalid_argument` before any state change; otherwise the threshold
is stored and `check_load_and_rehash` runs. -/
def set_max_load_factor {Key Val : Type} [DecidableEq Key] (cfg : HashConfig Key)
    (dup : Bool) (t : Table Key Val) (ml : ℚ) : Except String (Table Key Val) :=
  if ml ≤ 0 ∨ 1 < ml then .error "max_load_factor must be in (0, 1]"
  else .ok (check_load_and_rehash cfg dup { t with max_load_factor := ml })

/-- `OpenAddressingHashTable(capacity)`: `capacity` fresh `EMPTY` buckets,
size `0`, default threshold `0.75`. -/
def mkTable (Key Val : Type) (cap : Nat) : Table Key Val :=
  { buckets := List.replicate cap .empty, size := 0, max_load_factor := mkRat 3 4 }

/-- `OpenAddressingHashTable(std::initializer_list)`: delegate to the
capacity constructor with the list length, then insert each element. -/
def ofList {Key Val : Type} [DecidableEq Key] (cfg : HashConfig Key) (dup : Bool)
    (l : List (Key × Val)) : Table Key Val :=
  l.foldl (fun t e => (insert cfg dup t e.1 e.2).1) (mkTable Key Val l.length)

/-- Mutating operations, for stating facts about operation sequences. -/
inductive Op (Key Val : Type) where
  | ins : Key → Val → Op Key Val
  | del : Key → Op Key Val

/-- Run a sequence of mutating operations left to right. -/
def runOps {Key Val : Type} [DecidableEq Key] (cfg : HashConfig Key) (dup : Bool)
    (t : Table Key Val) (ops : List (Op Key Val)) : Table Key Val :=
  ops.foldl
    (fun t op =>
      match op with
      | .ins k v => (insert cfg dup t k v).1
      | .del k => (erase cfg t k).1)
    t

/-- Number of insertions of key `k` in an operation sequence. -/
def insCount {Key Val : Type} [DecidableEq Key] (k : Key) (ops : List (Op Key Val)) : Nat :=
  ops.countP fun op => match op with | .ins k' _ => decide (k' = k) | _ => false

/-! ### Generic list auxiliaries -/

theorem getD_set_self {α : Type} (l : List α) (i : Nat) (x d : α) (h : i < l.length) :
    (l.set i x).getD i d = x := by
  simp [List.getD_eq_getElem?_getD, List.getElem?_set_self, h]

theorem getD_set_ne {α : Type} (l : List α) (i j : Nat) (x d : α) (h : i ≠ j) :
    (l.set i x).getD j d = l.getD j d := by
  simp [List.getD_eq_getElem?_getD, List.getElem?_set_ne h]

theorem find?_split {α : Type} (p : α → Bool) :
    ∀ (l : List α) (a : α), l.find? p = some a →
      ∃ l1 l2, l = l1 ++ a :: l2 ∧ (∀ b ∈ l1, p b = false) ∧ p a = true
  | [], a, h => by simp [List.find?] at h
  | x :: l, a, h => by
    by_cases hx : p x = true
    · refine ⟨[], l, ?_, by simp, ?_⟩
      · simp only [List.find?_cons_of_pos _ hx, Option.some.injEq] at h
        simp [h]
      · simp only [List.find?_cons_of_pos _ hx, Option.some.injEq] at h
        rw [← h]; exact hx
    · rw [List.find?_cons_of_neg _ (by simp [hx])] at h
      obtain ⟨l1, l2, rfl, h1, h2⟩ := find?_split p l a h
      exact ⟨x :: l1, l2, rfl, by simpa [hx] using h1, h2⟩

/-! ### Probe-walk predicates -/

/-- The slot examined at attempt `a` of a probe walk. -/
def slotAt {Key Val : Type} (cfg : HashConfig Key) (bs : List (Bucket (Key × Val)))
    (k : Key) (h cap a : Nat) : Bucket (Key × Val) :=
  bs.getD (cfg.probe k h a cap) .empty

/-- The slot is occupied by an entry whose key equals `k`. -/
def occKeyB {Key Val : Type} [DecidableEq Key] (k : Key) : Bucket (Key × Val) → Bool
  | .occupied e => decide (e.1 = k)
  | _ => false

/-- Attempt `a` stops the `find_index` walk: an `EMPTY` slot or an occupied
slot with an equal key. -/
def stopFindB {Key Val : Type} [DecidableEq Key] (cfg : HashConfig Key)
    (bs : List (Bucket (Key × Val))) (k : Key) (h cap : Nat) (a : Nat) : Bool :=
  (slotAt cfg bs k h cap a).is_empty || occKeyB k (slotAt cfg bs k h cap a)

/-- Attempt `a` stops the `probe_insert_slot` walk: an `EMPTY` slot, or in
no-duplicates mode an occupied slot with an equal key. -/
def stopInsB {Key Val : Type} [DecidableEq Key] (cfg : HashConfig Key) (dup : Bool)
    (bs : List (Bucket (Key × Val))) (k : Key) (h cap : Nat) (a : Nat) : Bool :=
  (slotAt cfg bs k h cap a).is_empty || (!dup && occKeyB k (slotAt cfg bs k h cap a))

/-- Attempt `a` examines a `DELETED` slot. -/
def delAtB {Key Val : Type} (cfg : HashConfig Key) (bs : List (Bucket (Key × Val)))
    (k : Key) (h cap : Nat) (a : Nat) : Bool :=
  (slotAt cfg bs k h cap a).is_deleted

/-- The value of `first_deleted_index` after the walk has traversed the
attempts of `pre` without stopping, starting from the value `fdi`. -/
def fdAfter {Key Val : Type} (cfg : HashConfig Key) (bs : List (Bucket (Key × Val)))
    (k : Key) (h cap : Nat) (fdi : Nat) (pre : List Nat) : Nat :=
  if fdi = cap then
    match pre.find? (delAtB cfg bs k h cap) with
    | some b => cfg.probe k h b cap
    | none => cap
  else fdi

/-! ### Characterization of the `find_index` walk -/

theorem findIndexGo_char {Key Val : Type} [DecidableEq Key] (cfg : HashConfig Key)
    (bs : List (Bucket (Key × Val))) (k : Key) (h cap : Nat) :
    ∀ as : List Nat,
      findIndexGo cfg bs k h cap as =
        match as.find? (stopFindB cfg bs k h cap) with
        | none => cap
        | some a => if (slotAt cfg bs k h cap a).is_empty then cap else cfg.probe k h a cap
  | [] => by simp [findIndexGo, List.find?]
  | a :: rest => by
    rcases hslot : slotAt cfg bs k h cap a with _ | e | _
    · have hstop : stopFindB cfg bs k h cap a = true := by
        simp [stopFindB, hslot, Bucket.is_empty]
      rw [List.find?_cons_of_pos _ hstop]
      simp only [findIndexGo]
      rw [show bs.getD (cfg.probe k h a cap) Bucket.empty = Bucket.empty from hslot]
      simp [hslot, Bucket.is_empty]
    · by_cases hk : e.1 = k
      · have hstop : stopFindB cfg bs k h cap a = true := by
          simp [stopFindB, hslot, occKeyB, hk]
        rw [List.find?_cons_of_pos _ hstop]
        simp only [findIndexGo]
        rw [show bs.getD (cfg.probe k h a cap) Bucket.empty = Bucket.occupied e from hslot]
        simp [hk, hslot, Bucket.is_empty]
      · have hstop : stopFindB cfg bs k h cap a = false := by
          simp [stopFindB, hslot, occKeyB, hk, Bucket.is_empty]
        rw [List.find?_cons_of_neg _ (by simp [hstop])]
        have ih := findIndexGo_char cfg bs k h cap rest
        simp only [findIndexGo]
        rw [show bs.getD (cfg.probe k h a cap) Bucket.empty = Bucket.occupied e from hslot]
        simp [hk, ih]
    · have hstop : stopFindB cfg bs k h cap a = false := by
        simp [stopFindB, hslot, occKeyB, Bucket.is_empty]
      rw [List.find?_cons_of_neg _ (by simp [hstop])]
      have ih := findIndexGo_char cfg bs k h cap rest
      simp only [findIndexGo]
      rw [show bs.getD (cfg.probe k h a cap) Bucket.empty = Bucket.deleted from hslot]
      simp [ih]

/-! ### Step lemmas for the two walks -/

theorem findIndexGo_nil {Key Val : Type} [DecidableEq Key] (cfg : HashConfig Key)
    (bs : List (Bucket (Key × Val))) (k : Key) (h cap : Nat) :
    findIndexGo cfg bs k h cap [] = cap := rfl

theorem findIndexGo_cons_empty {Key Val : Type} [DecidableEq Key] (cfg : HashConfig Key)
    (bs : List (Bucket (Key × Val))) (k : Key) (h cap a : Nat) (rest : List Nat)
    (hslot : bs.getD (cfg.probe k h a cap) .empty = .empty) :
    findIndexGo cfg bs k h cap (a :: rest) = cap := by
  simp only [findIndexGo, hslot]

theorem findIndexGo_cons_deleted {Key Val : Type} [DecidableEq Key] (cfg : HashConfig Key)
    (bs : List (Bucket (Key × Val))) (k : Key) (h cap a : Nat) (rest : List Nat)
    (hslot : bs.getD (cfg.probe k h a cap) .empty = .deleted) :
    findIndexGo cfg bs k h cap (a :: rest) = findIndexGo cfg bs k h cap rest := by
  simp only [findIndexGo, hslot]

theorem findIndexGo_cons_occ_eq {Key Val : Type} [DecidableEq Key] (cfg : HashConfig Key)
    (bs : List (Bucket (Key × Val))) (k : Key) (h cap a : Nat) (rest : List Nat)
    (e : Key × Val) (hslot : bs.getD (cfg.probe k h a cap) .empty = .occupied e)
    (hek : e.1 = k) :
    findIndexGo cfg bs k h cap (a :: rest) = cfg.probe k h a cap := by
  simp only [findIndexGo, hslot, hek, if_true]

theorem findIndexGo_cons_occ_ne {Key Val : Type} [DecidableEq Key] (cfg : HashConfig Key)
    (bs : List (Bucket (Key × Val))) (k : Key) (h cap a : Nat) (rest : List Nat)
    (e : Key × Val) (hslot : bs.getD (cfg.probe k h a cap) .empty = .occupied e)
    (hek : ¬ e.1 = k) :
    findIndexGo cfg bs k h cap (a :: rest) = findIndexGo cfg bs k h cap rest := by
  simp only [findIndexGo, hslot, hek, if_false]

theorem probeInsertGo_nil {Key Val : Type} [DecidableEq Key] (cfg : HashConfig Key)
    (dup : Bool) (bs : List (Bucket (Key × Val))) (k : Key) (h cap fdi : Nat) :
    probeInsertGo cfg dup bs k h cap fdi [] =
      if fdi ≠ cap then (fdi, true) else (cap, false) := rfl

theorem probeInsertGo_cons_empty {Key Val : Type} [DecidableEq Key] (cfg : HashConfig Key)
    (dup : Bool) (bs : List (Bucket (Key × Val))) (k : Key) (h cap a fdi : Nat)
    (rest : List Nat) (hslot : bs.getD (cfg.probe k h a cap) .empty = .empty) :
    probeInsertGo cfg dup bs k h cap fdi (a :: rest) =
      (if fdi ≠ cap then fdi else cfg.probe k h a cap, true) := by
  simp only [probeInsertGo, hslot]

theorem probeInsertGo_cons_deleted {Key Val : Type} [DecidableEq Key] (cfg : HashConfig Key)
    (dup : Bool) (bs : List (Bucket (Key × Val))) (k : Key) (h cap a fdi : Nat)
    (rest : List Nat) (hslot : bs.getD (cfg.probe k h a cap) .empty = .deleted) :
    probeInsertGo cfg dup bs k h cap fdi (a :: rest) =
      probeInsertGo cfg dup bs k h cap
        (if fdi = cap then cfg.probe k h a cap else fdi) rest := by
  simp only [probeInsertGo, hslot]

theorem probeInsertGo_cons_occ_eq {Key Val : Type} [DecidableEq Key] (cfg : HashConfig Key)
    (dup : Bool) (bs : List (Bucket (Key × Val))) (k : Key) (h cap a fdi : Nat)
    (rest : List Nat) (e : Key × Val)
    (hslot : bs.getD (cfg.probe k h a cap) .empty = .occupied e) (hek : e.1 = k) :
    probeInsertGo cfg dup bs k h cap fdi (a :: rest) =
      if dup then probeInsertGo cfg dup bs k h cap fdi rest
      else (cfg.probe k h a cap, false) := by
  cases dup <;> simp only [probeInsertGo, hslot, hek, if_true, if_false, Bool.false_eq_true]

theorem probeInsertGo_cons_occ_ne {Key Val : Type} [DecidableEq Key] (cfg : HashConfig Key)
    (dup : Bool) (bs : List (Bucket (Key × Val))) (k : Key) (h cap a fdi : Nat)
    (rest : List Nat) (e : Key × Val)
    (hslot : bs.getD (cfg.probe k h a cap) .empty = .occupied e) (hek : ¬ e.1 = k) :
    probeInsertGo cfg dup bs k h cap fdi (a :: rest) =
      probeInsertGo cfg dup bs k h cap fdi rest := by
  simp only [probeInsertGo, hslot, hek, if_false]

/-! ### Lemmas on the `probe_insert_slot` walk -/

theorem fdAfter_nil {Key Val : Type} (cfg : HashConfig Key)
    (bs : List (Bucket (Key × Val))) (k : Key) (h cap fdi : Nat) :
    fdAfter cfg bs k h cap fdi [] = fdi := by
  by_cases hfdi : fdi = cap <;> simp [fdAfter, hfdi, List.find?]

theorem probeInsertGo_append {Key Val : Type} [DecidableEq Key] (cfg : HashConfig Key)
    (dup : Bool) (bs : List (Bucket (Key × Val))) (k : Key) (h cap : Nat) :
    ∀ (pre ys : List Nat) (fdi : Nat),
      (∀ a ∈ pre, stopInsB cfg dup bs k h cap a = false) →
      (∀ a ∈ pre, cfg.probe k h a cap < cap) →
      probeInsertGo cfg dup bs k h cap fdi (pre ++ ys) =
        probeInsertGo cfg dup bs k h cap (fdAfter cfg bs k h cap fdi pre) ys
  | [], ys, fdi, _, _ => by rw [List.nil_append, fdAfter_nil]
  | a :: pre, ys, fdi, hpre, hidx => by
    have hstop := hpre a (by simp)
    have hlt := hidx a (by simp)
    have ihpre : ∀ b ∈ pre, stopInsB cfg dup bs k h cap b = false :=
      fun b hb => hpre b (by simp [hb])
    have ihidx : ∀ b ∈ pre, cfg.probe k h b cap < cap :=
      fun b hb => hidx b (by simp [hb])
    rcases hslot : bs.getD (cfg.probe k h a cap) .empty with _ | e | _
    · simp only [stopInsB, slotAt] at hstop
      rw [hslot] at hstop
      simp [Bucket.is_empty] at hstop
    · have hdel : delAtB cfg bs k h cap a = false := by
        simp only [delAtB, slotAt]
        rw [hslot]
        rfl
      by_cases hek : e.1 = k
      · have hdup : dup = true := by
          rcases hd : dup with _ | _
          · exfalso
            simp only [stopInsB, slotAt] at hstop
            rw [hslot] at hstop
            simp [Bucket.is_empty, occKeyB, hek, hd] at hstop
          · rfl
        have hfind : List.find? (delAtB cfg bs k h cap) (a :: pre)
            = List.find? (delAtB cfg bs k h cap) pre :=
          List.find?_cons_of_neg _ (by simp [hdel])
        rw [List.cons_append, probeInsertGo_cons_occ_eq cfg dup bs k h cap a fdi _ e hslot hek]
        rw [if_pos hdup, probeInsertGo_append cfg dup bs k h cap pre ys fdi ihpre ihidx]
        simp only [fdAfter, hfind]
      · have hfind : List.find? (delAtB cfg bs k h cap) (a :: pre)
            = List.find? (delAtB cfg bs k h cap) pre :=
          List.find?_cons_of_neg _ (by simp [hdel])
        rw [List.cons_append, probeInsertGo_cons_occ_ne cfg dup bs k h cap a fdi _ e hslot hek]
        rw [probeInsertGo_append cfg dup bs k h cap pre ys fdi ihpre ihidx]
        simp only [fdAfter, hfind]
    · have hdel : delAtB cfg bs k h cap a = true := by
        simp only [delAtB, slotAt]
        rw [hslot]
        rfl
      have hfind : List.find? (delAtB cfg bs k h cap) (a :: pre) = some a :=
        List.find?_cons_of_pos _ hdel
      rw [List.cons_append, probeInsertGo_cons_deleted cfg dup bs k h cap a fdi _ hslot]
      rw [probeInsertGo_append cfg dup bs k h cap pre ys _ ihpre ihidx]
      by_cases hfdi : fdi = cap
      · have hne : cfg.probe k h a cap ≠ cap := Nat.ne_of_lt hlt
        simp [fdAfter, hfdi, hfind, hne]
      · simp [fdAfter, hfdi]

/-- A successful `probe_insert_slot` walk targets a slot that is not
occupied, and its index is below capacity. -/
theorem probeInsertGo_target {Key Val : Type} [DecidableEq Key] (cfg : HashConfig Key)
    (dup : Bool) (bs : List (Bucket (Key × Val))) (k : Key) (h cap : Nat) :
    ∀ (as : List Nat) (fdi p : Nat),
      (fdi ≠ cap → bs.getD fdi .empty = .deleted ∧ fdi < cap) →
      (∀ a ∈ as, cfg.probe k h a cap < cap) →
      probeInsertGo cfg dup bs k h cap fdi as = (p, true) →
      (bs.getD p .empty = .empty ∨ bs.getD p .empty = .deleted) ∧ p < cap
  | [], fdi, p, hfd, _, hrun => by
    rw [probeInsertGo_nil] at hrun
    by_cases hfdi : fdi = cap
    · simp [hfdi] at hrun
    · rw [if_pos hfdi] at hrun
      obtain ⟨h1, h2⟩ := hfd hfdi
      cases hrun
      exact ⟨Or.inr h1, h2⟩
  | a :: rest, fdi, p, hfd, hidx, hrun => by
    have hlt := hidx a (by simp)
    have ihidx : ∀ b ∈ rest, cfg.probe k h b cap < cap :=
      fun b hb => hidx b (by simp [hb])
    rcases hslot : bs.getD (cfg.probe k h a cap) .empty with _ | e | _
    · rw [probeInsertGo_cons_empty cfg dup bs k h cap a fdi _ hslot] at hrun
      by_cases hfdi : fdi = cap
      · rw [if_neg (by simp [hfdi])] at hrun
        cases hrun
        exact ⟨Or.inl hslot, hlt⟩
      · rw [if_pos hfdi] at hrun
        obtain ⟨h1, h2⟩ := hfd hfdi
        cases hrun
        exact ⟨Or.inr h1, h2⟩
    · by_cases hek : e.1 = k
      · rw [probeInsertGo_cons_occ_eq cfg dup bs k h cap a fdi _ e hslot hek] at hrun
        rcases hdup : dup with _ | _
        · rw [hdup] at hrun
          simp at hrun
        · rw [hdup] at hrun
          rw [if_pos rfl] at hrun
          exact probeInsertGo_target cfg dup bs k h cap rest fdi p hfd ihidx (hdup ▸ hrun)
      · rw [probeInsertGo_cons_occ_ne cfg dup bs k h cap a fdi _ e hslot hek] at hrun
        exact probeInsertGo_target cfg dup bs k h cap rest fdi p hfd ihidx hrun
    · rw [probeInsertGo_cons_deleted cfg dup bs k h cap a fdi _ hslot] at hrun
      refine probeInsertGo_target cfg dup bs k h cap rest _ p ?_ ihidx hrun
      intro hne
      by_cases hfdi : fdi = cap
      · rw [if_pos hfdi]
        rw [if_pos hfdi] at hne
        exact ⟨hslot, hlt⟩
      · rw [if_neg hfdi]
        exact hfd hfdi

/-- After a successful no-duplicates insertion at index `p`, the
`find_index` walk over the same attempt list locates `p` (or, when the walk
had already consumed the attempt that saw the reused tombstone, reports the
chain end). -/
theorem probeInsertGo_then_find {Key Val : Type} [DecidableEq Key] (cfg : HashConfig Key)
    (bs : List (Bucket (Key × Val))) (k : Key) (v : Val) (h : Nat) :
    ∀ (as : List Nat) (fdi p : Nat),
      (fdi ≠ bs.length → bs.getD fdi .empty = .deleted ∧ fdi < bs.length) →
      (∀ a ∈ as, cfg.probe k h a bs.length < bs.length) →
      probeInsertGo cfg false bs k h bs.length fdi as = (p, true) →
      findIndexGo cfg (bs.set p (.occupied (k, v))) k h bs.length as = p
        ∨ (p = fdi ∧ findIndexGo cfg (bs.set p (.occupied (k, v))) k h bs.length as = bs.length)
  | [], fdi, p, _, _, hrun => by
    rw [probeInsertGo_nil] at hrun
    by_cases hfdi : fdi = bs.length
    · simp [hfdi] at hrun
    · rw [if_pos hfdi] at hrun
      exact Or.inr ⟨(congrArg Prod.fst hrun).symm, findIndexGo_nil cfg _ k h bs.length⟩
  | a :: rest, fdi, p, hfd, hidx, hrun => by
    have hlt := hidx a (by simp)
    have ihidx : ∀ b ∈ rest, cfg.probe k h b bs.length < bs.length :=
      fun b hb => hidx b (by simp [hb])
    rcases hslot : bs.getD (cfg.probe k h a bs.length) .empty with _ | e | _
    · -- empty slot ends the insertion walk
      rw [probeInsertGo_cons_empty cfg false bs k h bs.length a fdi _ hslot] at hrun
      by_cases hfdi : fdi = bs.length
      · -- no tombstone seen: placed at this very slot
        rw [if_neg (by simp [hfdi])] at hrun
        have hp : cfg.probe k h a bs.length = p := congrArg Prod.fst hrun
        left
        have hplt : p < bs.length := hp ▸ hlt
        have hset : (bs.set p (Bucket.occupied (k, v))).getD
            (cfg.probe k h a bs.length) Bucket.empty = Bucket.occupied (k, v) := by
          rw [hp]
          exact getD_set_self _ _ _ _ hplt
        rw [findIndexGo_cons_occ_eq cfg _ k h bs.length a rest (k, v) hset rfl]
        exact hp
      · rw [if_pos hfdi] at hrun
        have hp : p = fdi := (congrArg Prod.fst hrun).symm
        have hdel := (hfd hfdi).1
        have hne : p ≠ cfg.probe k h a bs.length := by
          intro heq
          have hcontra : bs.getD (cfg.probe k h a bs.length) Bucket.empty = Bucket.deleted := by
            rw [← heq, hp]
            exact hdel
          rw [hslot] at hcontra
          exact absurd hcontra (by simp)
        right
        refine ⟨hp, ?_⟩
        have hset : (bs.set p (Bucket.occupied (k, v))).getD
            (cfg.probe k h a bs.length) Bucket.empty = Bucket.empty := by
          rw [getD_set_ne _ _ _ _ _ hne]; exact hslot
        exact findIndexGo_cons_empty cfg _ k h bs.length a rest hset
    · -- occupied slot: on this path the key differs
      by_cases hek : e.1 = k
      · rw [probeInsertGo_cons_occ_eq cfg false bs k h bs.length a fdi _ e hslot hek] at hrun
        simp at hrun
      · rw [probeInsertGo_cons_occ_ne cfg false bs k h bs.length a fdi _ e hslot hek] at hrun
        have ih := probeInsertGo_then_find cfg bs k v h rest fdi p hfd ihidx hrun
        have hpa : p ≠ cfg.probe k h a bs.length := by
          intro heq
          have htgt := (probeInsertGo_target cfg false bs k h bs.length rest fdi p hfd
            ihidx hrun).1
          rw [heq, hslot] at htgt
          rcases htgt with hh | hh <;> exact absurd hh (by simp)
        have hset : (bs.set p (Bucket.occupied (k, v))).getD
            (cfg.probe k h a bs.length) Bucket.empty = Bucket.occupied e := by
          rw [getD_set_ne _ _ _ _ _ hpa]; exact hslot
        rw [findIndexGo_cons_occ_ne cfg _ k h bs.length a rest e hset hek]
        exact ih
    · -- deleted slot
      rw [probeInsertGo_cons_deleted cfg false bs k h bs.length a fdi _ hslot] at hrun
      have ih := probeInsertGo_then_find cfg bs k v h rest
        (if fdi = bs.length then cfg.probe k h a bs.length else fdi) p
        (by
          intro hne
          by_cases hfdi : fdi = bs.length
          · rw [if_pos hfdi]
            exact ⟨hslot, hlt⟩
          · rw [if_neg hfdi]
            exact hfd hfdi)
        ihidx hrun
      by_cases hpa : p = cfg.probe k h a bs.length
      · left
        have hset : (bs.set p (Bucket.occupied (k, v))).getD
            (cfg.probe k h a bs.length) Bucket.empty = Bucket.occupied (k, v) := by
          rw [← hpa]
          exact getD_set_self _ _ _ _ (by rw [hpa]; simpa using hlt)
        rw [findIndexGo_cons_occ_eq cfg _ k h bs.length a rest (k, v) hset rfl]
        exact hpa.symm
      · have hset : (bs.set p (Bucket.occupied (k, v))).getD
            (cfg.probe k h a bs.length) Bucket.empty = Bucket.deleted := by
          rw [getD_set_ne _ _ _ _ _ hpa]; exact hslot
        rw [findIndexGo_cons_deleted cfg _ k h bs.length a rest hset]
        rcases ih with ih | ⟨ih1, ih2⟩
        · exact Or.inl ih
        · by_cases hfdi : fdi = bs.length
          · rw [if_pos hfdi] at ih1
            exact absurd ih1 hpa
          · rw [if_neg hfdi] at ih1
            exact Or.inr ⟨ih1, ih2⟩

/-! ### Lemmas on the `find_index` walk -/

/-- A `find_index` walk that reports an index (not the chain-end sentinel)
found an occupied slot with an equal key, at an in-range index. -/
theorem findIndexGo_found {Key Val : Type} [DecidableEq Key] (cfg : HashConfig Key)
    (bs : List (Bucket (Key × Val))) (k : Key) (h cap : Nat) :
    ∀ (as : List Nat) (p : Nat),
      (∀ a ∈ as, cfg.probe k h a cap < cap) →
      findIndexGo cfg bs k h cap as = p → p ≠ cap →
      (∃ e : Key × Val, bs.getD p .empty = .occupied e ∧ e.1 = k) ∧ p < cap
  | [], p, _, hrun, hne => by
    rw [findIndexGo_nil] at hrun
    exact absurd hrun.symm hne
  | a :: rest, p, hidx, hrun, hne => by
    have hlt := hidx a (by simp)
    have ihidx : ∀ b ∈ rest, cfg.probe k h b cap < cap :=
      fun b hb => hidx b (by simp [hb])
    rcases hslot : bs.getD (cfg.probe k h a cap) .empty with _ | e | _
    · rw [findIndexGo_cons_empty cfg bs k h cap a rest hslot] at hrun
      exact absurd hrun.symm hne
    · by_cases hek : e.1 = k
      · rw [findIndexGo_cons_occ_eq cfg bs k h cap a rest e hslot hek] at hrun
        exact ⟨⟨e, hrun ▸ hslot, hek⟩, hrun ▸ hlt⟩
      · rw [findIndexGo_cons_occ_ne cfg bs k h cap a rest e hslot hek] at hrun
        exact findIndexGo_found cfg bs k h cap rest p ihidx hrun hne
    · rw [findIndexGo_cons_deleted cfg bs k h cap a rest hslot] at hrun
      exact findIndexGo_found cfg bs k h cap rest p ihidx hrun hne

/-- Writing into a slot that was `EMPTY` cannot disturb a `find_index`
walk that succeeded, because a successful walk never crosses an `EMPTY`
slot. -/
theorem findIndexGo_set_stable {Key Val : Type} [DecidableEq Key] (cfg : HashConfig Key)
    (bs : List (Bucket (Key × Val))) (k : Key) (h cap : Nat) (q : Nat)
    (x : Bucket (Key × Val)) (hq : bs.getD q .empty = .empty) :
    ∀ (as : List Nat) (p : Nat),
      findIndexGo cfg bs k h cap as = p → p ≠ cap →
      findIndexGo cfg (bs.set q x) k h cap as = p
  | [], p, hrun, hne => by
    rw [findIndexGo_nil] at hrun
    exact absurd hrun.symm hne
  | a :: rest, p, hrun, hne => by
    rcases hslot : bs.getD (cfg.probe k h a cap) .empty with _ | e | _
    · rw [findIndexGo_cons_empty cfg bs k h cap a rest hslot] at hrun
      exact absurd hrun.symm hne
    · have hnq : q ≠ cfg.probe k h a cap := by
        intro heq
        rw [← heq, hq] at hslot
        exact absurd hslot (by simp)
      have hset : (bs.set q x).getD (cfg.probe k h a cap) .empty = .occupied e := by
        rw [getD_set_ne _ _ _ _ _ hnq]; exact hslot
      by_cases hek : e.1 = k
      · rw [findIndexGo_cons_occ_eq cfg bs k h cap a rest e hslot hek] at hrun
        rw [findIndexGo_cons_occ_eq cfg _ k h cap a rest e hset hek]
        exact hrun
      · rw [findIndexGo_cons_occ_ne cfg bs k h cap a rest e hslot hek] at hrun
        rw [findIndexGo_cons_occ_ne cfg _ k h cap a rest e hset hek]
        exact findIndexGo_set_stable cfg bs k h cap q x hq rest p hrun hne
    · have hnq : q ≠ cfg.probe k h a cap := by
        intro heq
        rw [← heq, hq] at hslot
        exact absurd hslot (by simp)
      have hset : (bs.set q x).getD (cfg.probe k h a cap) .empty = .deleted := by
        rw [getD_set_ne _ _ _ _ _ hnq]; exact hslot
      rw [findIndexGo_cons_deleted cfg bs k h cap a rest hslot] at hrun
      rw [findIndexGo_cons_deleted cfg _ k h cap a rest hset]
      exact findIndexGo_set_stable cfg bs k h cap q x hq rest p hrun hne

/-! ### Membership and counting auxiliaries -/

theorem mem_occupiedEntries {Key Val : Type} (bs : List (Bucket (Key × Val)))
    (e : Key × Val) : e ∈ occupiedEntries bs ↔ Bucket.occupied e ∈ bs := by
  simp only [occupiedEntries, List.mem_filterMap]
  constructor
  · rintro ⟨b, hb, hmatch⟩
    rcases b with _ | e0 | _
    · simp at hmatch
    · simp only [Option.some.injEq] at hmatch
      exact hmatch ▸ hb
    · simp at hmatch
  · intro hb
    exact ⟨_, hb, rfl⟩

theorem occupiedEntries_mem_iff {Key Val : Type} (bs : List (Bucket (Key × Val)))
    (e : Key × Val) :
    e ∈ occupiedEntries bs ↔ ∃ i, i < bs.length ∧ bs.getD i .empty = .occupied e := by
  rw [mem_occupiedEntries, List.mem_iff_getElem]
  constructor
  · rintro ⟨i, hi, hgi⟩
    exact ⟨i, hi, by
      rw [List.getD_eq_getElem?_getD, List.getElem?_eq_getElem hi, Option.getD_some, hgi]⟩
  · rintro ⟨i, hi, hgi⟩
    refine ⟨i, hi, ?_⟩
    rw [List.getD_eq_getElem?_getD, List.getElem?_eq_getElem hi, Option.getD_some] at hgi
    exact hgi

/-- A bucket array with fewer occupied slots than its length has a slot
that is not occupied. -/
theorem exists_not_occupied {Key Val : Type} (bs : List (Bucket (Key × Val)))
    (hlt : countOccupied bs < bs.length) :
    ∃ j, j < bs.length ∧ (bs.getD j .empty).is_occupied = false := by
  by_contra hcon
  push_neg at hcon
  have hall : ∀ b ∈ bs, Bucket.is_occupied b = true := by
    intro b hb
    obtain ⟨i, hi, hgi⟩ := List.mem_iff_getElem.mp hb
    have := hcon i hi
    rw [List.getD_eq_getElem?_getD, List.getElem?_eq_getElem hi, Option.getD_some, hgi] at this
    simpa using this
  have := List.countP_eq_length.mpr hall
  rw [countOccupied] at hlt
  omega

/-! ### The linear probing strategy satisfies the probing contract -/

theorem linearCfg_bounded : ProbeBounded linearCfg :=
  fun _ h a c hc => Nat.mod_lt (h + a) hc

theorem linearCfg_cover : ProbeCover linearCfg := by
  intro k h c j hj
  have hc : 0 < c := Nat.lt_of_le_of_lt (Nat.zero_le j) hj
  have hmod : h % c < c := Nat.mod_lt h hc
  refine ⟨(j + c - h % c) % c, Nat.mod_lt _ hc, ?_⟩
  show (h + (j + c - h % c) % c) % c = j
  have e1 : (h + (j + c - h % c) % c) % c = (h % c + (j + c - h % c)) % c :=
    Nat.ModEq.add (Nat.mod_modEq h c).symm (Nat.mod_modEq (j + c - h % c) c)
  have e2 : h % c + (j + c - h % c) = j + c := by omega
  rw [e1, e2, Nat.add_mod_right, Nat.mod_eq_of_lt hj]

/-! ### Success of the insertion probe -/

/-- When the probe sequence covers the table, some slot is free, and (in
no-duplicates mode) no occupied slot carries an equal key, the insertion
probe succeeds. -/
theorem probe_insert_success {Key Val : Type} [DecidableEq Key] (cfg : HashConfig Key)
    (dup : Bool) (bs : List (Bucket (Key × Val))) (k : Key) (h : Nat)
    (hb : ProbeBounded cfg) (hc : ProbeCover cfg) (h0 : 0 < bs.length)
    (hroom : ∃ j, j < bs.length ∧ (bs.getD j .empty).is_occupied = false)
    (hnoeq : dup = true ∨
      ∀ j (e : Key × Val), bs.getD j .empty = .occupied e → ¬ e.1 = k) :
    ∃ p, probe_insert_slot cfg dup bs k h = (p, true) := by
  have hidx : ∀ a ∈ List.range bs.length, cfg.probe k h a bs.length < bs.length :=
    fun a _ => hb k h a bs.length h0
  rcases hfind : (List.range bs.length).find? (stopInsB cfg dup bs k h bs.length)
    with _ | a
  · -- no stopping attempt: the walk exhausts and reuses a tombstone
    have hall := List.find?_eq_none.mp hfind
    obtain ⟨j, hj, hnotocc⟩ := hroom
    obtain ⟨a, ha, hpa⟩ := hc k h bs.length j hj
    have hmem : a ∈ List.range bs.length := List.mem_range.mpr ha
    have hstop := hall a hmem
    simp only [Bool.not_eq_true] at hstop
    have hdel : bs.getD j .empty = .deleted := by
      rcases hsl : bs.getD j .empty with _ | e | _
      · exfalso
        have hstt : stopInsB cfg dup bs k h bs.length a = true := by
          simp only [stopInsB, slotAt, hpa, hsl, Bucket.is_empty, Bool.true_or]
        rw [hstt] at hstop
        simp at hstop
      · exfalso
        rw [hsl] at hnotocc
        simp [Bucket.is_occupied] at hnotocc
      · rfl
    have hdelat : delAtB cfg bs k h bs.length a = true := by
      simp only [delAtB, slotAt, hpa]
      rw [hdel]
      rfl
    have hsome : ((List.range bs.length).find? (delAtB cfg bs k h bs.length)).isSome := by
      rw [List.find?_isSome]
      exact ⟨a, hmem, hdelat⟩
    obtain ⟨b, hbfind⟩ := Option.isSome_iff_exists.mp hsome
    have hball : ∀ x ∈ List.range bs.length, stopInsB cfg dup bs k h bs.length x = false :=
      fun x hx => by
        have := hall x hx
        simpa using this
    have hfda : fdAfter cfg bs k h bs.length bs.length (List.range bs.length)
        = cfg.probe k h b bs.length := by
      simp [fdAfter, hbfind]
    have hblt : cfg.probe k h b bs.length < bs.length := hb k h b bs.length h0
    refine ⟨cfg.probe k h b bs.length, ?_⟩
    rw [probe_insert_slot]
    rw [show List.range bs.length = List.range bs.length ++ [] from (List.append_nil _).symm]
    rw [probeInsertGo_append cfg dup bs k h bs.length (List.range bs.length) []
      bs.length hball hidx]
    rw [probeInsertGo_nil, hfda, if_pos (Nat.ne_of_lt hblt)]
  · -- a stopping attempt exists
    obtain ⟨l1, l2, hsplit, hl1, hpa⟩ := find?_split _ _ _ hfind
    have hl1idx : ∀ x ∈ l1, cfg.probe k h x bs.length < bs.length :=
      fun x _ => hb k h x bs.length h0
    rcases hslot : bs.getD (cfg.probe k h a bs.length) .empty with _ | e | _
    · rw [probe_insert_slot, hsplit,
        probeInsertGo_append cfg dup bs k h bs.length l1 (a :: l2) bs.length hl1 hl1idx,
        probeInsertGo_cons_empty cfg dup bs k h bs.length a _ _ hslot]
      exact ⟨_, rfl⟩
    · exfalso
      have : (!dup && occKeyB k (Bucket.occupied e)) = true := by
        have := hpa
        simp only [stopInsB, slotAt] at this
        rw [hslot] at this
        simpa [Bucket.is_empty] using this
      rcases hnoeq with hdup | hne
      · rw [hdup] at this
        simp at this
      · have hek : e.1 = k := by
          simp only [occKeyB, Bool.and_eq_true] at this
          exact of_decide_eq_true this.2
        exact hne _ e hslot hek
    · exfalso
      have := hpa
      simp only [stopInsB, slotAt] at this
      rw [hslot] at this
      simp [Bucket.is_empty, occKeyB] at this

/-! ### Invariants of `rehash` -/

theorem rehashStep_length {Key Val : Type} [DecidableEq Key] (cfg : HashConfig Key)
    (dup : Bool) (acc : Table Key Val) (b : Bucket (Key × Val)) :
    (rehashStep cfg dup acc b).buckets.length = acc.buckets.length := by
  rcases b with _ | e | _
  · rfl
  · rw [rehashStep]
    rcases hp : probe_insert_slot cfg dup acc.buckets e.1 (cfg.hash e.1) with ⟨i, bb⟩
    rcases bb with _ | _ <;> simp
  · rfl

theorem rehashStep_mlf {Key Val : Type} [DecidableEq Key] (cfg : HashConfig Key)
    (dup : Bool) (acc : Table Key Val) (b : Bucket (Key × Val)) :
    (rehashStep cfg dup acc b).max_load_factor = acc.max_load_factor := by
  rcases b with _ | e | _
  · rfl
  · rw [rehashStep]
    rcases hp : probe_insert_slot cfg dup acc.buckets e.1 (cfg.hash e.1) with ⟨i, bb⟩
    rcases bb with _ | _ <;> simp
  · rfl

theorem rehashStep_size_le {Key Val : Type} [DecidableEq Key] (cfg : HashConfig Key)
    (dup : Bool) (acc : Table Key Val) (b : Bucket (Key × Val)) :
    (rehashStep cfg dup acc b).size ≤
      acc.size + (if b.is_occupied then 1 else 0) := by
  rcases b with _ | e | _
  · simp [rehashStep, Bucket.is_occupied]
  · rw [rehashStep]
    rcases hp : probe_insert_slot cfg dup acc.buckets e.1 (cfg.hash e.1) with ⟨i, bb⟩
    rcases bb with _ | _ <;> simp [Bucket.is_occupied]
  · simp [rehashStep, Bucket.is_occupied]

theorem rehashFold_length {Key Val : Type} [DecidableEq Key] (cfg : HashConfig Key)
    (dup : Bool) :
    ∀ (l : List (Bucket (Key × Val))) (acc : Table Key Val),
      (l.foldl (rehashStep cfg dup) acc).buckets.length = acc.buckets.length
  | [], _ => rfl
  | b :: l, acc => by
    rw [List.foldl_cons, rehashFold_length cfg dup l (rehashStep cfg dup acc b),
      rehashStep_length]

theorem rehashFold_mlf {Key Val : Type} [DecidableEq Key] (cfg : HashConfig Key)
    (dup : Bool) :
    ∀ (l : List (Bucket (Key × Val))) (acc : Table Key Val),
      (l.foldl (rehashStep cfg dup) acc).max_load_factor = acc.max_load_factor
  | [], _ => rfl
  | b :: l, acc => by
    rw [List.foldl_cons, rehashFold_mlf cfg dup l (rehashStep cfg dup acc b), rehashStep_mlf]

theorem rehashFold_size_le {Key Val : Type} [DecidableEq Key] (cfg : HashConfig Key)
    (dup : Bool) :
    ∀ (l : List (Bucket (Key × Val))) (acc : Table Key Val),
      (l.foldl (rehashStep cfg dup) acc).size ≤ acc.size + countOccupied l
  | [], acc => by simp [countOccupied]
  | b :: l, acc => by
    rw [List.foldl_cons]
    refine le_trans (rehashFold_size_le cfg dup l (rehashStep cfg dup acc b)) ?_
    have h1 := rehashStep_size_le cfg dup acc b
    have h2 : countOccupied (b :: l)
        = (if b.is_occupied then 1 else 0) + countOccupied l := by
      rw [countOccupied, countOccupied, List.countP_cons]
      rcases hocc : b.is_occupied <;> simp [hocc] <;> omega
    omega

theorem rehash_length {Key Val : Type} [DecidableEq Key] (cfg : HashConfig Key)
    (dup : Bool) (t : Table Key Val) (n : Nat) :
    (rehash cfg dup t n).buckets.length = n := by
  rw [rehash, rehashFold_length]
  simp

theorem rehash_mlf {Key Val : Type} [DecidableEq Key] (cfg : HashConfig Key)
    (dup : Bool) (t : Table Key Val) (n : Nat) :
    (rehash cfg dup t n).max_load_factor = t.max_load_factor := by
  rw [rehash, rehashFold_mlf]

theorem rehash_size_le {Key Val : Type} [DecidableEq Key] (cfg : HashConfig Key)
    (dup : Bool) (t : Table Key Val) (n : Nat) :
    (rehash cfg dup t n).size ≤ countOccupied t.buckets := by
  have := rehashFold_size_le cfg dup t.buckets
    { buckets := List.replicate n .empty, size := 0,
      max_load_factor := t.max_load_factor }
  rw [rehash]
  simpa using this

theorem check_load_and_rehash_mlf {Key Val : Type} [DecidableEq Key] (cfg : HashConfig Key)
    (dup : Bool) (t : Table Key Val) :
    (check_load_and_rehash cfg dup t).max_load_factor = t.max_load_factor := by
  rw [check_load_and_rehash]
  split
  · rw [rehash_mlf]
  · rfl

/-! ### Rational arithmetic for the load factor -/

theorem mkRat_le_half (a b : Nat) (hb : 0 < b) (hab : 2 * a ≤ b) :
    mkRat a b ≤ mkRat 1 2 := by
  rw [Rat.mkRat_eq_div, Rat.mkRat_eq_div]
  rw [div_le_div_iff₀ (by exact_mod_cast hb) (by norm_num)]
  exact_mod_cast (by omega : a * 2 ≤ 1 * b)

theorem mkRat_nonneg_nat (a b : Nat) : 0 ≤ mkRat a b := by
  rw [Rat.mkRat_eq_div]
  positivity

/-! ### C1: load factor and growth -/

/-- C1 is falsified as stated: after a mutating insertion the load factor
can exceed the maximum load factor.  Starting from a default table of
capacity 4 and inserting the four keys 0..3, the load factor is 1 while
the threshold is 0.75. -/
theorem C1_counterexample :
    load_factor (insert linearCfg false (insert linearCfg false (insert linearCfg false
        (insert linearCfg false (mkTable Nat Nat 4) 0 0).1 1 1).1 2 2).1 3 3).1 >
      (insert linearCfg false (insert linearCfg false (insert linearCfg false
        (insert linearCfg false (mkTable Nat Nat 4) 0 0).1 1 1).1 2 2).1 3 3).1.max_load_factor := by
  decide

/-- C1 (amended): growth is triggered at the start of a mutating operation
when the load factor already exceeds the threshold, and immediately after
the growth step (before the new entry is placed) the load factor is again
at most the threshold, for any threshold of at least one half (in
particular the default 0.75).  The bound need not hold right after the
insertion itself. -/
theorem C1_amended {Key Val : Type} [DecidableEq Key] (cfg : HashConfig Key) (dup : Bool)
    (t : Table Key Val) (hml : mkRat 1 2 ≤ t.max_load_factor) :
    load_factor (check_load_and_rehash cfg dup t) ≤
      (check_load_and_rehash cfg dup t).max_load_factor := by
  rw [check_load_and_rehash]
  by_cases hgt : load_factor t > t.max_load_factor
  · rw [if_pos hgt]
    have hlen := rehash_length cfg dup t (t.buckets.length * 2)
    have hmlf := rehash_mlf cfg dup t (t.buckets.length * 2)
    have hsz := rehash_size_le cfg dup t (t.buckets.length * 2)
    have hcnt : countOccupied t.buckets ≤ t.buckets.length :=
      List.countP_le_length _
    rw [load_factor, hmlf]
    by_cases hnil : (rehash cfg dup t (t.buckets.length * 2)).buckets.isEmpty
    · rw [if_pos hnil]
      exact le_trans (by decide : (0 : ℚ) ≤ mkRat 1 2) hml
    · rw [if_neg hnil, hlen]
      have h0 : 0 < t.buckets.length * 2 := by
        by_contra hz
        rw [List.isEmpty_iff, ← List.length_eq_zero] at hnil
        omega
      refine le_trans (mkRat_le_half _ _ h0 (by omega)) hml
  · rw [if_neg hgt]
    exact le_of_not_lt hgt

/-- C1 witness: the amended bound holds on the default table of capacity
4. -/
theorem C1_witness :
    load_factor (check_load_and_rehash linearCfg false (mkTable Nat Nat 4)) ≤
      (check_load_and_rehash linearCfg false (mkTable Nat Nat 4)).max_load_factor :=
  C1_amended linearCfg false (mkTable Nat Nat 4) (by decide)

/-! ### C9: the `max_load_factor` setter -/

/-- C9: a threshold outside the interval `(0, 1]` makes the setter signal
`std::invalid_argument` synchronously, before any state change; a threshold
inside the interval is stored (and the growth check runs). -/
theorem C9_set_max_load_factor {Key Val : Type} [DecidableEq Key] (cfg : HashConfig Key)
    (dup : Bool) (t : Table Key Val) (ml : ℚ) :
    ((ml ≤ 0 ∨ 1 < ml) →
      set_max_load_factor cfg dup t ml = .error "max_load_factor must be in (0, 1]")
    ∧ (0 < ml → ml ≤ 1 →
      ∃ t', set_max_load_factor cfg dup t ml = .ok t' ∧ t'.max_load_factor = ml) := by
  constructor
  · intro hml
    rw [set_max_load_factor, if_pos hml]
  · intro h1 h2
    have hcond : ¬ (ml ≤ 0 ∨ 1 < ml) := by
      push_neg
      exact ⟨h1, h2⟩
    refine ⟨check_load_and_rehash cfg dup { t with max_load_factor := ml },
      by rw [set_max_load_factor, if_neg hcond], ?_⟩
    rw [check_load_and_rehash_mlf]

/-- C9 witness: `3/2` is rejected and `1/2` is stored, on the default
table of capacity 4. -/
theorem C9_witness :
    (set_max_load_factor linearCfg false (mkTable Nat Nat 4) (mkRat 3 2)
      = .error "max_load_factor must be in (0, 1]")
    ∧ ∃ t', set_max_load_factor linearCfg false (mkTable Nat Nat 4) (mkRat 1 2) = .ok t'
        ∧ t'.max_load_factor = mkRat 1 2 :=
  ⟨(C9_set_max_load_factor linearCfg false (mkTable Nat Nat 4) (mkRat 3 2)).1
      (Or.inr (by decide)),
    (C9_set_max_load_factor linearCfg false (mkTable Nat Nat 4) (mkRat 1 2)).2
      (by decide) (by decide)⟩

/-! ### C10: zero-capacity tables -/

/-- C10: on a table with capacity 0 (as produced by the empty
initializer-list constructor), `insert`, `emplace`, `try_emplace` and
`insert_or_assign` all fail by returning the end position (index equal to
the capacity, 0) with the inserted flag `false`, trigger no growth, and
leave the table unchanged; the probing strategy is never consulted (the
result holds for every `cfg`). -/
theorem C10_zero_capacity {Key Val : Type} [DecidableEq Key] (cfg : HashConfig Key)
    (dup : Bool) (t : Table Key Val) (k : Key) (v : Val)
    (hcap : t.buckets = []) (hml : 0 < t.max_load_factor) :
    insert cfg dup t k v = (t, 0, false)
    ∧ emplace cfg dup t k v = (t, 0, false)
    ∧ try_emplace cfg dup t k v = (t, 0, false)
    ∧ insert_or_assign cfg dup t k v = (t, 0, false)
    ∧ (ofList cfg dup ([] : List (Key × Val))).buckets = [] := by
  have hlf : load_factor t = 0 := by
    rw [load_factor, if_pos (by rw [hcap]; rfl)]
  have hchk : check_load_and_rehash cfg dup t = t := by
    rw [check_load_and_rehash, if_neg (not_lt.mpr (by rw [hlf]; exact hml.le))]
  have hprobe : probe_insert_slot cfg dup t.buckets k (cfg.hash k) = (0, false) := by
    rw [hcap]; rfl
  have hlen : t.buckets.length = 0 := by rw [hcap]; rfl
  refine ⟨?_, ?_, ?_, ?_, rfl⟩
  · simp [insert, hchk, hprobe, hlen]
  · simp [emplace, hchk, hprobe, hlen]
  · simp [try_emplace, hchk, hprobe, hlen]
  · simp [insert_or_assign, hchk, hprobe, hlen]

/-- C10 witness: the concrete empty-initializer-list table with `Nat` keys
and values. -/
theorem C10_witness :
    insert linearCfg false (ofList linearCfg false ([] : List (Nat × Nat))) 7 9
        = (ofList linearCfg false ([] : List (Nat × Nat)), 0, false)
    ∧ emplace linearCfg false (ofList linearCfg false ([] : List (Nat × Nat))) 7 9
        = (ofList linearCfg false ([] : List (Nat × Nat)), 0, false)
    ∧ try_emplace linearCfg false (ofList linearCfg false ([] : List (Nat × Nat))) 7 9
        = (ofList linearCfg false ([] : List (Nat × Nat)), 0, false)
    ∧ insert_or_assign linearCfg false (ofList linearCfg false ([] : List (Nat × Nat))) 7 9
        = (ofList linearCfg false ([] : List (Nat × Nat)), 0, false)
    ∧ (ofList linearCfg false ([] : List (Nat × Nat))).buckets = [] :=
  C10_zero_capacity linearCfg false (ofList linearCfg false ([] : List (Nat × Nat))) 7 9
    (by decide) (by decide)


/-! ### The two walks agree on their stopping predicate in no-duplicates
mode -/

theorem stopInsB_false_eq_find {Key Val : Type} [DecidableEq Key] (cfg : HashConfig Key)
    (bs : List (Bucket (Key × Val))) (k : Key) (h cap a : Nat) :
    stopInsB cfg false bs k h cap a = stopFindB cfg bs k h cap a := by
  rw [stopInsB, stopFindB]
  simp

/-! ### C5: tombstone reuse at insertion -/

/-- C5: when the insertion walk reaches its first stopping attempt `a` and
that slot is `EMPTY`, the entry is placed at the first `DELETED` slot seen
during the earlier attempts when one exists, and at the `EMPTY` slot
otherwise; the walk reports success. -/
theorem C5_insert_placement {Key Val : Type} [DecidableEq Key] (cfg : HashConfig Key)
    (dup : Bool) (bs : List (Bucket (Key × Val))) (k : Key) (a : Nat)
    (hb : ProbeBounded cfg)
    (ha : a < bs.length)
    (hpre : ∀ b ∈ List.range a, stopInsB cfg dup bs k (cfg.hash k) bs.length b = false)
    (hstop : bs.getD (cfg.probe k (cfg.hash k) a bs.length) .empty = .empty) :
    probe_insert_slot cfg dup bs k (cfg.hash k) =
      (((List.range a).find? (delAtB cfg bs k (cfg.hash k) bs.length)).elim
        (cfg.probe k (cfg.hash k) a bs.length)
        (fun b => cfg.probe k (cfg.hash k) b bs.length), true) := by
  have h0 : 0 < bs.length := Nat.lt_of_le_of_lt (Nat.zero_le a) ha
  have hsplit : List.range bs.length
      = List.range a ++ List.range' a (bs.length - a) := by
    obtain ⟨m, hm⟩ : ∃ m, bs.length = m + a := ⟨bs.length - a, by omega⟩
    rw [show bs.length - a = m from by omega, hm]
    rw [List.range_eq_range', List.range_eq_range']
    rw [← List.range'_append 0 a m 1]
    norm_num
  have hcons : List.range' a (bs.length - a)
      = a :: List.range' (a + 1) (bs.length - a - 1) := by
    rw [show bs.length - a = (bs.length - a - 1) + 1 from by omega]
    rfl
  have hidx : ∀ b ∈ List.range a, cfg.probe k (cfg.hash k) b bs.length < bs.length :=
    fun b _ => hb k (cfg.hash k) b bs.length h0
  rw [probe_insert_slot, hsplit, hcons]
  rw [probeInsertGo_append cfg dup bs k (cfg.hash k) bs.length (List.range a) _
    bs.length hpre hidx]
  rw [probeInsertGo_cons_empty cfg dup bs k (cfg.hash k) bs.length a _ _ hstop]
  rcases hfd : (List.range a).find? (delAtB cfg bs k (cfg.hash k) bs.length) with _ | b
  · have hfda : fdAfter cfg bs k (cfg.hash k) bs.length bs.length (List.range a)
        = bs.length := by
      simp [fdAfter, hfd]
    rw [hfda, if_neg (by simp)]
    simp
  · have hblt : cfg.probe k (cfg.hash k) b bs.length < bs.length :=
      hb k (cfg.hash k) b bs.length h0
    have hfda : fdAfter cfg bs k (cfg.hash k) bs.length bs.length (List.range a)
        = cfg.probe k (cfg.hash k) b bs.length := by
      simp [fdAfter, hfd]
    rw [hfda, if_pos (Nat.ne_of_lt hblt)]
    simp

/-- C5 witness: key 1 probes a `DELETED` slot at index 1, then an `EMPTY`
slot at index 2; the entry is placed at index 1. -/
theorem C5_witness :
    probe_insert_slot linearCfg false
        [Bucket.occupied ((0 : Nat), (0 : Nat)), Bucket.deleted, Bucket.empty,
          Bucket.empty] 1 (linearCfg.hash 1) =
      (((List.range 1).find? (delAtB linearCfg
          [Bucket.occupied ((0 : Nat), (0 : Nat)), Bucket.deleted, Bucket.empty,
            Bucket.empty] 1 (linearCfg.hash 1)
          [Bucket.occupied ((0 : Nat), (0 : Nat)), Bucket.deleted, Bucket.empty,
            Bucket.empty].length)).elim
        (linearCfg.probe 1 (linearCfg.hash 1) 1
          [Bucket.occupied ((0 : Nat), (0 : Nat)), Bucket.deleted, Bucket.empty,
            Bucket.empty].length)
        (fun b => linearCfg.probe 1 (linearCfg.hash 1) b
          [Bucket.occupied ((0 : Nat), (0 : Nat)), Bucket.deleted, Bucket.empty,
            Bucket.empty].length), true) :=
  C5_insert_placement linearCfg false
    [Bucket.occupied ((0 : Nat), (0 : Nat)), Bucket.deleted, Bucket.empty, Bucket.empty]
    1 1 linearCfg_bounded (by decide) (by decide) (by decide)

/-! ### C6: characterization of `find_index` -/

/-- C6: on a table with positive capacity, `find_index` computes the hash
once and probes attempts `0, 1, ...` in order: at the first attempt whose
slot is `EMPTY` it reports absent (the capacity sentinel); at the first
occupied slot with an equal key it reports that index; `DELETED` slots are
passed over; after at most `capacity` attempts it reports absent. -/
theorem C6_find_index_char {Key Val : Type} [DecidableEq Key] (cfg : HashConfig Key)
    (t : Table Key Val) (k : Key) (h0 : 0 < t.buckets.length) :
    find_index cfg t k =
      match (List.range t.buckets.length).find?
          (stopFindB cfg t.buckets k (cfg.hash k) t.buckets.length) with
      | none => t.buckets.length
      | some a =>
        if (slotAt cfg t.buckets k (cfg.hash k) t.buckets.length a).is_empty
        then t.buckets.length
        else cfg.probe k (cfg.hash k) a t.buckets.length := by
  rw [find_index, find_index_bs, if_neg (by
    rw [List.isEmpty_iff]
    exact List.length_pos.mp h0)]
  exact findIndexGo_char cfg t.buckets k (cfg.hash k) t.buckets.length
    (List.range t.buckets.length)

/-- C6 witness: a concrete table with an occupied, a deleted and empty
slots. -/
theorem C6_witness :
    find_index linearCfg
        (Table.mk [Bucket.empty, Bucket.occupied ((1 : Nat), (5 : Nat)), Bucket.deleted,
          Bucket.empty] 1 (mkRat 3 4)) 1 =
      match (List.range (Table.mk [Bucket.empty, Bucket.occupied ((1 : Nat), (5 : Nat)),
          Bucket.deleted, Bucket.empty] 1 (mkRat 3 4)).buckets.length).find?
          (stopFindB linearCfg (Table.mk [Bucket.empty,
            Bucket.occupied ((1 : Nat), (5 : Nat)), Bucket.deleted, Bucket.empty] 1
            (mkRat 3 4)).buckets 1 (linearCfg.hash 1)
            (Table.mk [Bucket.empty, Bucket.occupied ((1 : Nat), (5 : Nat)),
              Bucket.deleted, Bucket.empty] 1 (mkRat 3 4)).buckets.length) with
      | none => (Table.mk [Bucket.empty, Bucket.occupied ((1 : Nat), (5 : Nat)),
          Bucket.deleted, Bucket.empty] 1 (mkRat 3 4)).buckets.length
      | some a =>
        if (slotAt linearCfg (Table.mk [Bucket.empty,
            Bucket.occupied ((1 : Nat), (5 : Nat)), Bucket.deleted, Bucket.empty] 1
            (mkRat 3 4)).buckets 1 (linearCfg.hash 1)
            (Table.mk [Bucket.empty, Bucket.occupied ((1 : Nat), (5 : Nat)),
              Bucket.deleted, Bucket.empty] 1 (mkRat 3 4)).buckets.length a).is_empty
        then (Table.mk [Bucket.empty, Bucket.occupied ((1 : Nat), (5 : Nat)),
            Bucket.deleted, Bucket.empty] 1 (mkRat 3 4)).buckets.length
        else linearCfg.probe 1 (linearCfg.hash 1) a
          (Table.mk [Bucket.empty, Bucket.occupied ((1 : Nat), (5 : Nat)),
            Bucket.deleted, Bucket.empty] 1 (mkRat 3 4)).buckets.length :=
  C6_find_index_char linearCfg
    (Table.mk [Bucket.empty, Bucket.occupied ((1 : Nat), (5 : Nat)), Bucket.deleted,
      Bucket.empty] 1 (mkRat 3 4)) 1 (by decide)


/-! ### From a successful insertion probe to a successful lookup -/

theorem probe_slot_then_find_bs {Key Val : Type} [DecidableEq Key] (cfg : HashConfig Key)
    (bs : List (Bucket (Key × Val))) (k : Key) (v : Val) (p : Nat)
    (hb : ProbeBounded cfg)
    (hrun : probe_insert_slot cfg false bs k (cfg.hash k) = (p, true)) :
    find_index_bs cfg (bs.set p (.occupied (k, v))) k = p
    ∧ (bs.set p (.occupied (k, v))).getD p .empty = .occupied (k, v)
    ∧ p < bs.length := by
  have h0 : 0 < bs.length := by
    rcases Nat.eq_zero_or_pos bs.length with hz | hp
    · exfalso
      have hnil : bs = [] := List.length_eq_zero.mp hz
      rw [hnil] at hrun
      rw [show probe_insert_slot cfg false ([] : List (Bucket (Key × Val))) k (cfg.hash k)
        = (0, false) from rfl] at hrun
      simp at hrun
    · exact hp
  have hfd : bs.length ≠ bs.length →
      bs.getD bs.length .empty = .deleted ∧ bs.length < bs.length :=
    fun hc => absurd rfl hc
  have hidx : ∀ a ∈ List.range bs.length,
      cfg.probe k (cfg.hash k) a bs.length < bs.length :=
    fun a _ => hb k (cfg.hash k) a bs.length h0
  rw [probe_insert_slot] at hrun
  have htgt := probeInsertGo_target cfg false bs k (cfg.hash k) bs.length
    (List.range bs.length) bs.length p hfd hidx hrun
  have hplt : p < bs.length := htgt.2
  have hih := probeInsertGo_then_find cfg bs k v (cfg.hash k) (List.range bs.length)
    bs.length p hfd hidx hrun
  rcases hih with hfind | ⟨hpeq, _⟩
  · refine ⟨?_, getD_set_self _ _ _ _ hplt, hplt⟩
    rw [find_index_bs, if_neg (by
      rw [List.isEmpty_iff]
      intro hnil
      have hlen := congrArg List.length hnil
      rw [List.length_set, List.length_nil] at hlen
      omega)]
    rw [List.length_set]
    exact hfind
  · exact absurd hpeq (Nat.ne_of_lt hplt)

/-! ### C3: round trip of `insert` and `find`/`contains` -/

/-- C3: immediately after a successful `insert(k, v)` (no-duplicates mode),
`find(k)` yields the entry `(k, v)` and `contains(k)` is `true`. -/
theorem C3_round_trip {Key Val : Type} [DecidableEq Key] (cfg : HashConfig Key)
    (t : Table Key Val) (k : Key) (v : Val) (t' : Table Key Val) (p : Nat)
    (hb : ProbeBounded cfg)
    (hins : insert cfg false t k v = (t', p, true)) :
    findEntry cfg t' k = some (k, v) ∧ contains cfg t' k = true := by
  simp only [insert] at hins
  rcases hpis : probe_insert_slot cfg false (check_load_and_rehash cfg false t).buckets k
      (cfg.hash k) with ⟨index, inserted⟩
  rw [hpis] at hins
  by_cases hidx0 : index = (check_load_and_rehash cfg false t).buckets.length
  · rw [if_pos hidx0] at hins
    have hfl := congrArg (fun x => x.2.2) hins
    simp at hfl
  · rw [if_neg hidx0] at hins
    rcases hinsb : inserted with _ | _
    · rw [hinsb] at hins
      rw [if_neg (by simp)] at hins
      have hfl := congrArg (fun x => x.2.2) hins
      simp at hfl
    · rw [hinsb] at hins
      rw [if_pos rfl] at hins
      have ht' : t' = { check_load_and_rehash cfg false t with
          buckets := (check_load_and_rehash cfg false t).buckets.set index
            (.occupied (k, v)),
          size := (check_load_and_rehash cfg false t).size + 1 } :=
        (congrArg (fun x => x.1) hins).symm
      obtain ⟨hfi, hget, hplt⟩ := probe_slot_then_find_bs cfg
        (check_load_and_rehash cfg false t).buckets k v index hb (by rw [hpis, hinsb])
      have hbuck : t'.buckets = (check_load_and_rehash cfg false t).buckets.set index
          (.occupied (k, v)) := by rw [ht']
      have hlen' : t'.buckets.length
          = (check_load_and_rehash cfg false t).buckets.length := by
        rw [hbuck, List.length_set]
      have hfi' : find_index cfg t' k = index := by
        rw [find_index, hbuck]
        exact hfi
      have hget' : t'.buckets.getD index .empty = .occupied (k, v) := by
        rw [hbuck]
        exact hget
      have hne : find_index cfg t' k ≠ t'.buckets.length := by
        rw [hfi', hlen']
        exact Nat.ne_of_lt hplt
      have hocc : (t'.buckets.getD (find_index cfg t' k) .empty).is_occupied = true := by
        rw [hfi', hget']
        rfl
      constructor
      · rw [findEntry, find]
        rw [if_neg (by
          push_neg
          refine ⟨hne, ?_⟩
          rw [hocc]
          simp)]
        show (match t'.buckets.getD (find_index cfg t' k) .empty with
          | Bucket.occupied e => some e
          | _ => none) = some (k, v)
        simp only [hfi', hget']
      · rw [contains, Bool.and_eq_true]
        exact ⟨decide_eq_true hne, hocc⟩

/-- C3 witness: inserting `(2, 7)` into the default table of capacity 4. -/
theorem C3_witness :
    findEntry linearCfg (Table.mk [Bucket.empty, Bucket.empty,
        Bucket.occupied ((2 : Nat), (7 : Nat)), Bucket.empty] 1 (mkRat 3 4)) 2
      = some (2, 7)
    ∧ contains linearCfg (Table.mk [Bucket.empty, Bucket.empty,
        Bucket.occupied ((2 : Nat), (7 : Nat)), Bucket.empty] 1 (mkRat 3 4)) 2 = true :=
  C3_round_trip linearCfg (mkTable Nat Nat 4) 2 7 _ 2 linearCfg_bounded (by decide)

/-! ### C8: duplicate insertion in no-duplicates mode -/

theorem find_bs_found_probe {Key Val : Type} [DecidableEq Key] (cfg : HashConfig Key)
    (bs : List (Bucket (Key × Val))) (k : Key)
    (hb : ProbeBounded cfg) (h0 : 0 < bs.length)
    (hne : findIndexGo cfg bs k (cfg.hash k) bs.length (List.range bs.length)
      ≠ bs.length) :
    probe_insert_slot cfg false bs k (cfg.hash k)
      = (findIndexGo cfg bs k (cfg.hash k) bs.length (List.range bs.length), false) := by
  have hchar := findIndexGo_char cfg bs k (cfg.hash k) bs.length (List.range bs.length)
  rcases hf : (List.range bs.length).find? (stopFindB cfg bs k (cfg.hash k) bs.length)
    with _ | a
  · rw [hf] at hchar
    exact absurd hchar hne
  · rw [hf] at hchar
    have hchar2 : findIndexGo cfg bs k (cfg.hash k) bs.length (List.range bs.length)
        = if (slotAt cfg bs k (cfg.hash k) bs.length a).is_empty then bs.length
          else cfg.probe k (cfg.hash k) a bs.length := hchar
    by_cases hemp : (slotAt cfg bs k (cfg.hash k) bs.length a).is_empty = true
    · rw [if_pos hemp] at hchar2
      exact absurd hchar2 hne
    · rw [if_neg hemp] at hchar2
      have hstop := List.find?_some hf
      have hocc : ∃ e : Key × Val,
          bs.getD (cfg.probe k (cfg.hash k) a bs.length) .empty = .occupied e
          ∧ e.1 = k := by
        rcases hsl : bs.getD (cfg.probe k (cfg.hash k) a bs.length) .empty with _ | e | _
        · exfalso
          apply hemp
          simp only [slotAt]
          rw [hsl]
          rfl
        · refine ⟨e, rfl, ?_⟩
          simp only [stopFindB, slotAt] at hstop
          rw [hsl] at hstop
          simp [Bucket.is_empty, occKeyB] at hstop
          exact hstop
        · exfalso
          simp only [stopFindB, slotAt] at hstop
          rw [hsl] at hstop
          simp [Bucket.is_empty, occKeyB] at hstop
      obtain ⟨e, hsl, hek⟩ := hocc
      obtain ⟨l1, l2, hsplit, hl1, _⟩ := find?_split _ _ _ hf
      have hl1i : ∀ b ∈ l1, stopInsB cfg false bs k (cfg.hash k) bs.length b = false := by
        intro b hbm
        rw [stopInsB_false_eq_find]
        exact hl1 b hbm
      have hidx : ∀ x ∈ l1, cfg.probe k (cfg.hash k) x bs.length < bs.length :=
        fun x _ => hb k (cfg.hash k) x bs.length h0
      rw [probe_insert_slot, hsplit]
      rw [probeInsertGo_append cfg false bs k (cfg.hash k) bs.length l1 (a :: l2)
        bs.length hl1i hidx]
      rw [probeInsertGo_cons_occ_eq cfg false bs k (cfg.hash k) bs.length a _ _ e hsl hek]
      rw [if_neg (by simp)]
      rw [← hsplit, hchar2]

/-- C8 is falsified as stated: a duplicate insertion whose preceding load
check triggers growth does mutate the slot array (though not the size).
Capacity 1 with key 0 present: the duplicate insert reports `false` but the
buckets change. -/
theorem C8_counterexample :
    (insert linearCfg false (insert linearCfg false (mkTable Nat Nat 1) 0 5).1 0 7).2.2
      = false
    ∧ (insert linearCfg false (insert linearCfg false (mkTable Nat Nat 1) 0 5).1 0 7).1.buckets
      ≠ (insert linearCfg false (mkTable Nat Nat 1) 0 5).1.buckets := by
  decide

/-- C8 (amended): in no-duplicates mode, when the load factor is at most
the threshold (so the preceding check does not grow the table), inserting
an already-present key `k` performs no mutation at all, reports `false`,
and returns the existing entry's index; in general only the size is
guaranteed unchanged, since the load check may relocate entries first. -/
theorem C8_amended {Key Val : Type} [DecidableEq Key] (cfg : HashConfig Key)
    (t : Table Key Val) (k : Key) (v : Val)
    (hb : ProbeBounded cfg)
    (hload : load_factor t ≤ t.max_load_factor)
    (hcont : contains cfg t k = true) :
    insert cfg false t k v = (t, find_index cfg t k, false)
    ∧ ∃ w, t.buckets.getD (find_index cfg t k) .empty = .occupied (k, w) := by
  have hchk : check_load_and_rehash cfg false t = t := by
    rw [check_load_and_rehash, if_neg (not_lt.mpr hload)]
  rw [contains, Bool.and_eq_true] at hcont
  obtain ⟨hned, hocc⟩ := hcont
  have hne : find_index cfg t k ≠ t.buckets.length := of_decide_eq_true hned
  have h0 : 0 < t.buckets.length := by
    rcases Nat.eq_zero_or_pos t.buckets.length with hz | hp
    · exfalso
      have hnil : t.buckets = [] := List.length_eq_zero.mp hz
      rw [find_index, find_index_bs, if_pos (by rw [hnil]; rfl)] at hocc
      rw [hnil] at hocc
      simp [Bucket.is_occupied] at hocc
    · exact hp
  have hfi : find_index cfg t k = findIndexGo cfg t.buckets k (cfg.hash k)
      t.buckets.length (List.range t.buckets.length) := by
    rw [find_index, find_index_bs, if_neg (by
      rw [List.isEmpty_iff]
      exact List.length_pos.mp h0)]
  have hprobe := find_bs_found_probe cfg t.buckets k hb h0 (by rw [← hfi]; exact hne)
  have hfound := findIndexGo_found cfg t.buckets k (cfg.hash k) t.buckets.length
    (List.range t.buckets.length) _
    (fun a _ => hb k (cfg.hash k) a t.buckets.length h0) rfl (by rw [← hfi]; exact hne)
  obtain ⟨⟨e, hgete, hek⟩, hflt⟩ := hfound
  constructor
  · simp only [insert, hchk]
    rw [← hfi] at hprobe
    rw [hprobe]
    rw [if_neg hne]
    rw [if_neg (by simp)]
  · obtain ⟨e1, e2⟩ := e
    refine ⟨e2, ?_⟩
    rw [hfi]
    have hek1 : e1 = k := hek
    subst hek1
    exact hgete

/-- C8 witness: the table `[EMPTY, (1, 5), EMPTY, EMPTY]` at load factor
1/4, re-inserting key 1. -/
theorem C8_witness :
    insert linearCfg false (Table.mk [Bucket.empty,
        Bucket.occupied ((1 : Nat), (5 : Nat)), Bucket.empty, Bucket.empty] 1
        (mkRat 3 4)) 1 9
      = (Table.mk [Bucket.empty, Bucket.occupied ((1 : Nat), (5 : Nat)), Bucket.empty,
          Bucket.empty] 1 (mkRat 3 4),
        find_index linearCfg (Table.mk [Bucket.empty,
          Bucket.occupied ((1 : Nat), (5 : Nat)), Bucket.empty, Bucket.empty] 1
          (mkRat 3 4)) 1, false)
    ∧ ∃ w, (Table.mk [Bucket.empty, Bucket.occupied ((1 : Nat), (5 : Nat)), Bucket.empty,
        Bucket.empty] 1 (mkRat 3 4)).buckets.getD
        (find_index linearCfg (Table.mk [Bucket.empty,
          Bucket.occupied ((1 : Nat), (5 : Nat)), Bucket.empty, Bucket.empty] 1
          (mkRat 3 4)) 1) .empty
      = .occupied (1, w) :=
  C8_amended linearCfg (Table.mk [Bucket.empty, Bucket.occupied ((1 : Nat), (5 : Nat)),
    Bucket.empty, Bucket.empty] 1 (mkRat 3 4)) 1 9 linearCfg_bounded (by decide) (by decide)


/-! ### Behaviour of `erase` -/

theorem erase_found {Key Val : Type} [DecidableEq Key] (cfg : HashConfig Key)
    (s : Table Key Val) (k : Key) (hcont : contains cfg s k = true) :
    erase cfg s k =
      ({ s with
          buckets := s.buckets.set (find_index cfg s k) Bucket.deleted,
          size := s.size - 1 }, 1) := by
  rw [contains, Bool.and_eq_true] at hcont
  obtain ⟨hned, hocc⟩ := hcont
  have hne := of_decide_eq_true hned
  simp only [erase]
  rw [if_neg (by
    push_neg
    refine ⟨hne, ?_⟩
    rw [hocc]
    simp)]

theorem erase_absent {Key Val : Type} [DecidableEq Key] (cfg : HashConfig Key)
    (s : Table Key Val) (k : Key) (hcont : contains cfg s k = false) :
    erase cfg s k = (s, 0) := by
  have hguard : find_index cfg s k = s.buckets.length
      ∨ (s.buckets.getD (find_index cfg s k) .empty).is_occupied = false := by
    by_contra hcon
    push_neg at hcon
    obtain ⟨h1, h2⟩ := hcon
    have h2t : (s.buckets.getD (find_index cfg s k) .empty).is_occupied = true := by
      rcases hx : (s.buckets.getD (find_index cfg s k) .empty).is_occupied with _ | _
      · exact absurd hx h2
      · rfl
    have hct : contains cfg s k = true := by
      rw [contains, Bool.and_eq_true]
      exact ⟨decide_eq_true h1, h2t⟩
    rw [hcont] at hct
    simp at hct
  simp only [erase]
  rw [if_pos hguard]

/-- The `find_index` walk reports the chain end when no occupied slot
carries an equal key. -/
theorem find_index_bs_absent {Key Val : Type} [DecidableEq Key] (cfg : HashConfig Key)
    (bs : List (Bucket (Key × Val))) (k : Key) (h0 : 0 < bs.length)
    (hnone : ∀ j (e : Key × Val), bs.getD j .empty = .occupied e → ¬ e.1 = k) :
    find_index_bs cfg bs k = bs.length := by
  rw [find_index_bs, if_neg (by
    rw [List.isEmpty_iff]
    exact List.length_pos.mp h0)]
  have hchar := findIndexGo_char cfg bs k (cfg.hash k) bs.length (List.range bs.length)
  rcases hf : (List.range bs.length).find? (stopFindB cfg bs k (cfg.hash k) bs.length)
    with _ | a
  · rw [hf] at hchar
    exact hchar
  · rw [hf] at hchar
    have hchar2 : findIndexGo cfg bs k (cfg.hash k) bs.length (List.range bs.length)
        = if (slotAt cfg bs k (cfg.hash k) bs.length a).is_empty then bs.length
          else cfg.probe k (cfg.hash k) a bs.length := hchar
    have hstop := List.find?_some hf
    rcases hsl : bs.getD (cfg.probe k (cfg.hash k) a bs.length) .empty with _ | e | _
    · rw [if_pos (by simp only [slotAt]; rw [hsl]; rfl)] at hchar2
      exact hchar2
    · exfalso
      simp only [stopFindB, slotAt] at hstop
      rw [hsl] at hstop
      simp [Bucket.is_empty, occKeyB] at hstop
      exact hnone _ e hsl hstop
    · exfalso
      simp only [stopFindB, slotAt] at hstop
      rw [hsl] at hstop
      simp [Bucket.is_empty, occKeyB] at hstop

/-- Destructuring of a successful `insert` in no-duplicates mode. -/
theorem insert_true_dest {Key Val : Type} [DecidableEq Key] (cfg : HashConfig Key)
    (t t' : Table Key Val) (k : Key) (v : Val) (p : Nat)
    (hb : ProbeBounded cfg)
    (hins : insert cfg false t k v = (t', p, true)) :
    t'.buckets = (check_load_and_rehash cfg false t).buckets.set p (.occupied (k, v))
    ∧ t'.size = (check_load_and_rehash cfg false t).size + 1
    ∧ find_index cfg t' k = p
    ∧ t'.buckets.getD p .empty = .occupied (k, v)
    ∧ p < (check_load_and_rehash cfg false t).buckets.length := by
  simp only [insert] at hins
  rcases hpis : probe_insert_slot cfg false (check_load_and_rehash cfg false t).buckets k
      (cfg.hash k) with ⟨index, inserted⟩
  rw [hpis] at hins
  by_cases hidx0 : index = (check_load_and_rehash cfg false t).buckets.length
  · rw [if_pos hidx0] at hins
    have hfl := congrArg (fun x => x.2.2) hins
    simp at hfl
  · rw [if_neg hidx0] at hins
    rcases hinsb : inserted with _ | _
    · rw [hinsb] at hins
      rw [if_neg (by simp)] at hins
      have hfl := congrArg (fun x => x.2.2) hins
      simp at hfl
    · rw [hinsb] at hins
      rw [if_pos rfl] at hins
      have ht' : t' = { check_load_and_rehash cfg false t with
          buckets := (check_load_and_rehash cfg false t).buckets.set index
            (.occupied (k, v)),
          size := (check_load_and_rehash cfg false t).size + 1 } :=
        (congrArg (fun x => x.1) hins).symm
      have hpi : p = index := (congrArg (fun x => x.2.1) hins).symm
      obtain ⟨hfi, hget, hplt⟩ := probe_slot_then_find_bs cfg
        (check_load_and_rehash cfg false t).buckets k v index hb (by rw [hpis, hinsb])
      subst hpi
      have hbuck : t'.buckets = (check_load_and_rehash cfg false t).buckets.set p
          (.occupied (k, v)) := by rw [ht']
      refine ⟨hbuck, by rw [ht'], ?_, ?_, hplt⟩
      · rw [find_index, hbuck]
        exact hfi
      · rw [hbuck]
        exact hget

/-! ### C7: erase semantics and deletion-then-lookup -/

/-- C7: erasing a present key marks its slot `DELETED` (never `EMPTY`),
decrements the live counter and returns 1; erasing an absent key returns 0
and leaves the table unchanged; and after a successful insert of `k`
followed by an erase of `k` (with no other entry of key `k` in the table),
`find(k)` is not-found and a second erase returns 0. -/
theorem C7_erase {Key Val : Type} [DecidableEq Key] (cfg : HashConfig Key)
    (t : Table Key Val) (k : Key) (v : Val) (hb : ProbeBounded cfg) :
    (contains cfg t k = true →
      erase cfg t k =
        ({ t with
            buckets := t.buckets.set (find_index cfg t k) Bucket.deleted,
            size := t.size - 1 }, 1))
    ∧ (contains cfg t k = false → erase cfg t k = (t, 0))
    ∧ (∀ t' p, insert cfg false t k v = (t', p, true) →
        (∀ j, j < t'.buckets.length → j ≠ p →
          occKeyB k (t'.buckets.getD j .empty) = false) →
        find cfg (erase cfg t' k).1 k = none
        ∧ erase cfg (erase cfg t' k).1 k = ((erase cfg t' k).1, 0)) := by
  refine ⟨fun hcont => erase_found cfg t k hcont,
    fun hcont => erase_absent cfg t k hcont, ?_⟩
  intro t' p hins hone
  obtain ⟨hbuck, hsz, hfi, hget, hplt⟩ := insert_true_dest cfg t t' k v p hb hins
  have hlen' : t'.buckets.length = (check_load_and_rehash cfg false t).buckets.length := by
    rw [hbuck, List.length_set]
  have hplt' : p < t'.buckets.length := by omega
  have hcont' : contains cfg t' k = true := by
    rw [contains, Bool.and_eq_true]
    refine ⟨decide_eq_true ?_, ?_⟩
    · rw [hfi]
      omega
    · rw [hfi, hget]
      rfl
  have herase := erase_found cfg t' k hcont'
  rw [herase]
  have hs2buck : ({ t' with
        buckets := t'.buckets.set (find_index cfg t' k) Bucket.deleted,
        size := t'.size - 1 } : Table Key Val).buckets
      = t'.buckets.set p Bucket.deleted := by
    rw [hfi]
  have hs2len : (t'.buckets.set p Bucket.deleted).length = t'.buckets.length :=
    List.length_set t'.buckets p Bucket.deleted
  have hnone : ∀ j (e : Key × Val),
      (t'.buckets.set p Bucket.deleted).getD j .empty = .occupied e → ¬ e.1 = k := by
    intro j e hj
    by_cases hjp : j = p
    · exfalso
      rw [hjp] at hj
      rw [getD_set_self _ _ _ _ hplt'] at hj
      exact absurd hj (by simp)
    · rw [getD_set_ne _ _ _ _ _ (fun hx => hjp hx.symm)] at hj
      have hjlt : j < t'.buckets.length := by
        by_contra hge
        rw [List.getD_eq_default _ _ (by omega)] at hj
        exact absurd hj (by simp)
      have hof := hone j hjlt hjp
      rw [hj] at hof
      simp [occKeyB] at hof
      exact hof
  have habs : find_index cfg { t' with
        buckets := t'.buckets.set (find_index cfg t' k) Bucket.deleted,
        size := t'.size - 1 } k = (t'.buckets.set p Bucket.deleted).length := by
    rw [find_index, hs2buck]
    exact find_index_bs_absent cfg _ k (by omega) hnone
  constructor
  · simp only [find]
    rw [if_pos (Or.inl (by rw [habs, hfi]))]
  · simp only [erase]
    rw [if_pos (Or.inl (by rw [habs, hfi]))]

/-- C7 witness: erasing present key 1 from a concrete table, and the
insert-then-erase round trip from the default table of capacity 4. -/
theorem C7_witness :
    erase linearCfg (Table.mk [Bucket.empty, Bucket.occupied ((1 : Nat), (5 : Nat)),
        Bucket.empty, Bucket.empty] 1 (mkRat 3 4)) 1
      = ({ (Table.mk [Bucket.empty, Bucket.occupied ((1 : Nat), (5 : Nat)),
            Bucket.empty, Bucket.empty] 1 (mkRat 3 4)) with
            buckets := (Table.mk [Bucket.empty, Bucket.occupied ((1 : Nat), (5 : Nat)),
              Bucket.empty, Bucket.empty] 1 (mkRat 3 4)).buckets.set
              (find_index linearCfg (Table.mk [Bucket.empty,
                Bucket.occupied ((1 : Nat), (5 : Nat)), Bucket.empty, Bucket.empty] 1
                (mkRat 3 4)) 1) Bucket.deleted,
            size := (Table.mk [Bucket.empty, Bucket.occupied ((1 : Nat), (5 : Nat)),
              Bucket.empty, Bucket.empty] 1 (mkRat 3 4)).size - 1 }, 1)
    ∧ find linearCfg (erase linearCfg (Table.mk [Bucket.empty,
        Bucket.occupied ((1 : Nat), (9 : Nat)), Bucket.empty, Bucket.empty] 1
        (mkRat 3 4)) 1).1 1 = none
    ∧ erase linearCfg (erase linearCfg (Table.mk [Bucket.empty,
        Bucket.occupied ((1 : Nat), (9 : Nat)), Bucket.empty, Bucket.empty] 1
        (mkRat 3 4)) 1).1 1
      = ((erase linearCfg (Table.mk [Bucket.empty,
          Bucket.occupied ((1 : Nat), (9 : Nat)), Bucket.empty, Bucket.empty] 1
          (mkRat 3 4)) 1).1, 0) :=
  ⟨(C7_erase linearCfg (Table.mk [Bucket.empty, Bucket.occupied ((1 : Nat), (5 : Nat)),
      Bucket.empty, Bucket.empty] 1 (mkRat 3 4)) 1 9 linearCfg_bounded).1 (by decide),
    ((C7_erase linearCfg (mkTable Nat Nat 4) 1 9 linearCfg_bounded).2.2
      (Table.mk [Bucket.empty, Bucket.occupied ((1 : Nat), (9 : Nat)), Bucket.empty,
        Bucket.empty] 1 (mkRat 3 4)) 1 (by decide) (by decide)).1,
    ((C7_erase linearCfg (mkTable Nat Nat 4) 1 9 linearCfg_bounded).2.2
      (Table.mk [Bucket.empty, Bucket.occupied ((1 : Nat), (9 : Nat)), Bucket.empty,
        Bucket.empty] 1 (mkRat 3 4)) 1 (by decide) (by decide)).2⟩

/-! ### Slot-array facts used by the rehash correctness proof -/

/-- A bucket array without tombstones. -/
def NoDeleted {Key Val : Type} (bs : List (Bucket (Key × Val))) : Prop :=
  ∀ j, bs.getD j .empty ≠ .deleted

theorem getD_occ_lt {Key Val : Type} (bs : List (Bucket (Key × Val))) (j : Nat)
    (e : Key × Val) (h : bs.getD j .empty = .occupied e) : j < bs.length := by
  by_contra hge
  rw [List.getD_eq_default _ _ (by omega)] at h
  exact absurd h (by simp)

theorem noDeleted_set_occupied {Key Val : Type} (bs : List (Bucket (Key × Val)))
    (i : Nat) (e : Key × Val) (h : NoDeleted bs) :
    NoDeleted (bs.set i (.occupied e)) := by
  intro j
  by_cases hij : i = j
  · by_cases hlt : i < bs.length
    · rw [hij] at hlt ⊢
      rw [getD_set_self _ _ _ _ hlt]
      simp
    · rw [List.set_eq_of_length_le (by omega)]
      exact h j
  · rw [getD_set_ne _ _ _ _ _ hij]
    exact h j

theorem noDeleted_replicate {Key Val : Type} (n : Nat) :
    NoDeleted (List.replicate n (Bucket.empty : Bucket (Key × Val))) := by
  intro j
  rcases Nat.lt_or_ge j n with hlt | hge
  · rw [List.getD_eq_getElem?_getD, List.getElem?_replicate, if_pos hlt]
    simp
  · rw [List.getD_eq_default _ _ (by simpa using hge)]
    simp

theorem countOccupied_set_occupied {Key Val : Type} :
    ∀ (bs : List (Bucket (Key × Val))) (p : Nat) (e : Key × Val),
      p < bs.length → (bs.getD p .empty).is_occupied = false →
      countOccupied (bs.set p (.occupied e)) = countOccupied bs + 1
  | [], p, e, hp, _ => by simp at hp
  | b :: bs, 0, e, _, hold => by
    have hb : b.is_occupied = false := hold
    simp only [List.set_cons_zero, countOccupied, List.countP_cons]
    rw [hb]
    simp [Bucket.is_occupied]
  | b :: bs, p + 1, e, hp, hold => by
    have ih := countOccupied_set_occupied bs p e (by simpa using hp) hold
    simp only [List.set_cons_succ, countOccupied, List.countP_cons] at ih ⊢
    omega

theorem countOccupied_replicate_empty {Key Val : Type} (n : Nat) :
    countOccupied (List.replicate n (Bucket.empty : Bucket (Key × Val))) = 0 := by
  rw [countOccupied, List.countP_eq_zero]
  intro b hb
  rw [List.eq_of_mem_replicate hb]
  simp [Bucket.is_occupied]

theorem occupiedEntries_replicate_empty {Key Val : Type} (n : Nat) :
    occupiedEntries (List.replicate n (Bucket.empty : Bucket (Key × Val))) = [] := by
  rw [occupiedEntries, List.filterMap_eq_nil]
  intro b hb
  rw [List.eq_of_mem_replicate hb]

theorem occupiedEntries_cons_occ {Key Val : Type} (e : Key × Val)
    (l : List (Bucket (Key × Val))) :
    occupiedEntries (Bucket.occupied e :: l) = e :: occupiedEntries l := rfl

theorem occupiedEntries_cons_empty {Key Val : Type} (l : List (Bucket (Key × Val))) :
    occupiedEntries (Bucket.empty :: l) = occupiedEntries l := rfl

theorem occupiedEntries_cons_deleted {Key Val : Type} (l : List (Bucket (Key × Val))) :
    occupiedEntries (Bucket.deleted :: l) = occupiedEntries l := rfl

/-- Writing into an `EMPTY` slot keeps every previously findable entry
findable at its index. -/
theorem find_index_bs_set_stable {Key Val : Type} [DecidableEq Key] (cfg : HashConfig Key)
    (bs : List (Bucket (Key × Val))) (k : Key) (q : Nat) (x : Bucket (Key × Val))
    (hq : bs.getD q .empty = .empty) (h0 : 0 < bs.length)
    (hne : find_index_bs cfg bs k ≠ bs.length) :
    find_index_bs cfg (bs.set q x) k = find_index_bs cfg bs k := by
  have hnotnil : ¬ bs.isEmpty = true := by
    rw [List.isEmpty_iff]
    exact List.length_pos.mp h0
  have hnotnil2 : ¬ (bs.set q x).isEmpty = true := by
    rw [List.isEmpty_iff]
    intro hcon
    have := congrArg List.length hcon
    rw [List.length_set, List.length_nil] at this
    omega
  rw [find_index_bs, if_neg hnotnil2, List.length_set]
  rw [find_index_bs, if_neg hnotnil]
  rw [find_index_bs, if_neg hnotnil] at hne
  exact findIndexGo_set_stable cfg bs k (cfg.hash k) bs.length q x hq
    (List.range bs.length) _ rfl hne


/-! ### Rehash drops no live entry (no-duplicates mode) -/

theorem rehashFold_no_deleted {Key Val : Type} [DecidableEq Key] (cfg : HashConfig Key)
    (dup : Bool) :
    ∀ (l : List (Bucket (Key × Val))) (acc : Table Key Val),
      NoDeleted acc.buckets →
      NoDeleted ((l.foldl (rehashStep cfg dup) acc).buckets)
  | [], _, h => h
  | b :: l, acc, h => by
    rw [List.foldl_cons]
    refine rehashFold_no_deleted cfg dup l _ ?_
    rcases b with _ | e | _
    · exact h
    · rw [rehashStep]
      rcases hp : probe_insert_slot cfg dup acc.buckets e.1 (cfg.hash e.1) with ⟨i, bb⟩
      rcases bb with _ | _
      · exact h
      · exact noDeleted_set_occupied acc.buckets i e h
    · exact h

/-- Re-inserting the (pairwise distinct-keyed) occupied entries of the old
array into a fresh array keeps every one of them findable with its value,
given a bounded, covering probe and room below the new capacity. -/
theorem rehashFold_find_all {Key Val : Type} [DecidableEq Key] (cfg : HashConfig Key)
    (hb : ProbeBounded cfg) (hc : ProbeCover cfg) (B : Nat) :
    ∀ (l : List (Bucket (Key × Val))) (acc : Table Key Val),
      countOccupied acc.buckets + countOccupied l ≤ B →
      B < acc.buckets.length →
      NoDeleted acc.buckets →
      (∀ e1 ∈ occupiedEntries acc.buckets, ∀ e2 ∈ occupiedEntries l, ¬ e1.1 = e2.1) →
      (occupiedEntries l).Pairwise (fun e1 e2 => ¬ e1.1 = e2.1) →
      (∀ e ∈ occupiedEntries acc.buckets,
        find_index_bs cfg acc.buckets e.1 < acc.buckets.length
        ∧ acc.buckets.getD (find_index_bs cfg acc.buckets e.1) .empty = .occupied e) →
      ∀ e, (e ∈ occupiedEntries acc.buckets ∨ e ∈ occupiedEntries l) →
        find_index_bs cfg (l.foldl (rehashStep cfg false) acc).buckets e.1
            < (l.foldl (rehashStep cfg false) acc).buckets.length
        ∧ (l.foldl (rehashStep cfg false) acc).buckets.getD
            (find_index_bs cfg (l.foldl (rehashStep cfg false) acc).buckets e.1) .empty
          = .occupied e
  | [], acc, _, _, _, _, _, hfound, e, he => by
    rw [List.foldl_nil]
    rcases he with he | he
    · exact hfound e he
    · simp [occupiedEntries] at he
  | b :: l, acc, hroom, hB, hnd, hdisj, hpw, hfound, e, he => by
    rcases b with _ | e0 | _
    · -- EMPTY old bucket is dropped
      have hstep : rehashStep cfg false acc Bucket.empty = acc := rfl
      rw [List.foldl_cons, hstep]
      rw [occupiedEntries_cons_empty] at hdisj hpw he
      have hoc : countOccupied (Bucket.empty :: l) = countOccupied l := by
        simp [countOccupied, List.countP_cons, Bucket.is_occupied]
      rw [hoc] at hroom
      exact rehashFold_find_all cfg hb hc B l acc hroom hB hnd hdisj hpw hfound e he
    · -- OCCUPIED old bucket is re-inserted
      obtain ⟨k0, v0⟩ := e0
      rw [List.foldl_cons]
      rw [occupiedEntries_cons_occ] at hdisj hpw he
      have hoc : countOccupied (Bucket.occupied (k0, v0) :: l) = countOccupied l + 1 := by
        simp [countOccupied, List.countP_cons, Bucket.is_occupied]
      rw [hoc] at hroom
      have h0 : 0 < acc.buckets.length := by omega
      have hoccl : countOccupied acc.buckets < acc.buckets.length := by omega
      have hnoeq : (false = true) ∨ ∀ j (e' : Key × Val),
          acc.buckets.getD j .empty = .occupied e' → ¬ e'.1 = k0 := by
        right
        intro j e' hj
        have hjlt := getD_occ_lt _ _ _ hj
        have hmem : e' ∈ occupiedEntries acc.buckets :=
          (occupiedEntries_mem_iff _ _).mpr ⟨j, hjlt, hj⟩
        exact hdisj e' hmem (k0, v0) (List.mem_cons_self _ _)
      obtain ⟨p, hp⟩ := probe_insert_success cfg false acc.buckets k0 (cfg.hash k0)
        hb hc h0 (exists_not_occupied _ hoccl) hnoeq
      have hstep : rehashStep cfg false acc (Bucket.occupied (k0, v0))
          = { acc with
              buckets := acc.buckets.set p (.occupied (k0, v0)),
              size := acc.size + 1 } := by
        simp only [rehashStep]
        rw [hp]
      rw [hstep]
      have hp2 := hp
      rw [probe_insert_slot] at hp2
      have htgt := probeInsertGo_target cfg false acc.buckets k0 (cfg.hash k0)
        acc.buckets.length (List.range acc.buckets.length) acc.buckets.length p
        (fun hcc => absurd rfl hcc)
        (fun a _ => hb k0 (cfg.hash k0) a acc.buckets.length h0) hp2
      have hpltN : p < acc.buckets.length := htgt.2
      have hempty : acc.buckets.getD p .empty = .empty := by
        rcases htgt.1 with hh | hh
        · exact hh
        · exact absurd hh (hnd p)
      obtain ⟨hfiN, hgetN, _⟩ := probe_slot_then_find_bs cfg acc.buckets k0 v0 p hb hp
      have hlenN : (acc.buckets.set p (Bucket.occupied (k0, v0))).length
          = acc.buckets.length := List.length_set _ _ _
      have hcntN : countOccupied (acc.buckets.set p (Bucket.occupied (k0, v0)))
          = countOccupied acc.buckets + 1 :=
        countOccupied_set_occupied _ _ _ hpltN (by rw [hempty]; rfl)
      have hmemN : ∀ e1, e1 ∈ occupiedEntries (acc.buckets.set p (Bucket.occupied (k0, v0)))
          → e1 = (k0, v0) ∨ e1 ∈ occupiedEntries acc.buckets := by
        intro e1 h1
        obtain ⟨i, hi, hgi⟩ := (occupiedEntries_mem_iff _ _).mp h1
        have hi2 : i < acc.buckets.length := by rw [hlenN] at hi; exact hi
        by_cases hip : i = p
        · rw [hip, getD_set_self _ _ _ _ hpltN] at hgi
          exact Or.inl (Bucket.occupied.inj hgi).symm
        · rw [getD_set_ne _ _ _ _ _ (fun hx => hip hx.symm)] at hgi
          exact Or.inr ((occupiedEntries_mem_iff _ _).mpr ⟨i, hi2, hgi⟩)
      have hmemNrev1 : ∀ e1 ∈ occupiedEntries acc.buckets,
          e1 ∈ occupiedEntries (acc.buckets.set p (Bucket.occupied (k0, v0))) := by
        intro e1 h1
        obtain ⟨i, hi, hgi⟩ := (occupiedEntries_mem_iff _ _).mp h1
        have hip : ¬ p = i := by
          intro hx
          rw [← hx] at hgi
          rw [hempty] at hgi
          simp at hgi
        exact (occupiedEntries_mem_iff _ _).mpr ⟨i, by rw [hlenN]; exact hi,
          by rw [getD_set_ne _ _ _ _ _ hip]; exact hgi⟩
      have hmemNrev0 : (k0, v0)
          ∈ occupiedEntries (acc.buckets.set p (Bucket.occupied (k0, v0))) :=
        (occupiedEntries_mem_iff _ _).mpr ⟨p, by rw [hlenN]; exact hpltN,
          getD_set_self _ _ _ _ hpltN⟩
      have hpwc := List.pairwise_cons.mp hpw
      refine rehashFold_find_all cfg hb hc B l
        { acc with
          buckets := acc.buckets.set p (Bucket.occupied (k0, v0)),
          size := acc.size + 1 }
        ?_ ?_ ?_ ?_ hpwc.2 ?_ e ?_
      · show countOccupied (acc.buckets.set p (Bucket.occupied (k0, v0)))
            + countOccupied l ≤ B
        rw [hcntN]
        omega
      · show B < (acc.buckets.set p (Bucket.occupied (k0, v0))).length
        rw [hlenN]
        exact hB
      · show NoDeleted (acc.buckets.set p (Bucket.occupied (k0, v0)))
        exact noDeleted_set_occupied _ _ _ hnd
      · show ∀ e1 ∈ occupiedEntries (acc.buckets.set p (Bucket.occupied (k0, v0))),
            ∀ e2 ∈ occupiedEntries l, ¬ e1.1 = e2.1
        intro e1 h1 e2 h2
        rcases hmemN e1 h1 with h1e | h1a
        · rw [h1e]
          exact hpwc.1 e2 h2
        · exact hdisj e1 h1a e2 (List.mem_cons_of_mem _ h2)
      · show ∀ e1 ∈ occupiedEntries (acc.buckets.set p (Bucket.occupied (k0, v0))),
            find_index_bs cfg (acc.buckets.set p (Bucket.occupied (k0, v0))) e1.1
              < (acc.buckets.set p (Bucket.occupied (k0, v0))).length
            ∧ (acc.buckets.set p (Bucket.occupied (k0, v0))).getD
                (find_index_bs cfg (acc.buckets.set p (Bucket.occupied (k0, v0))) e1.1)
                .empty
              = .occupied e1
        intro e1 h1
        rcases hmemN e1 h1 with h1e | h1a
        · rw [h1e]
          constructor
          · rw [show ((k0, v0) : Key × Val).1 = k0 from rfl, hfiN, hlenN]
            exact hpltN
          · rw [show ((k0, v0) : Key × Val).1 = k0 from rfl, hfiN]
            exact hgetN
        · obtain ⟨hlt1, hget1⟩ := hfound e1 h1a
          have hstable := find_index_bs_set_stable cfg acc.buckets e1.1 p
            (Bucket.occupied (k0, v0)) hempty h0 (Nat.ne_of_lt hlt1)
          have hfp : ¬ p = find_index_bs cfg acc.buckets e1.1 := by
            intro hx
            rw [← hx] at hget1
            rw [hempty] at hget1
            simp at hget1
          constructor
          · rw [hstable, hlenN]
            exact hlt1
          · rw [hstable, getD_set_ne _ _ _ _ _ hfp]
            exact hget1
      · show e ∈ occupiedEntries (acc.buckets.set p (Bucket.occupied (k0, v0)))
            ∨ e ∈ occupiedEntries l
        rcases he with hea | hec
        · exact Or.inl (hmemNrev1 e hea)
        · rcases List.mem_cons.mp hec with he0 | hel
          · rw [he0]
            exact Or.inl hmemNrev0
          · exact Or.inr hel
    · -- DELETED old bucket is dropped
      have hstep : rehashStep cfg false acc Bucket.deleted = acc := rfl
      rw [List.foldl_cons, hstep]
      rw [occupiedEntries_cons_deleted] at hdisj hpw he
      have hoc : countOccupied (Bucket.deleted :: l) = countOccupied l := by
        simp [countOccupied, List.countP_cons, Bucket.is_occupied]
      rw [hoc] at hroom
      exact rehashFold_find_all cfg hb hc B l acc hroom hB hnd hdisj hpw hfound e he


/-! ### C4: growth doubles capacity, drops tombstones, preserves content -/

/-- C4: growth rehashes into a fresh array of exactly double the old
capacity, the rebuilt array contains no `DELETED` slot, and (in
no-duplicates mode, with pairwise distinct stored keys and a bounded,
covering probe) every occupied entry of the old array remains findable
with its value after growth. -/
theorem C4_growth {Key Val : Type} [DecidableEq Key] (cfg : HashConfig Key)
    (t : Table Key Val)
    (hb : ProbeBounded cfg) (hc : ProbeCover cfg)
    (h0 : 0 < t.buckets.length)
    (hpw : (occupiedEntries t.buckets).Pairwise (fun e1 e2 => ¬ e1.1 = e2.1)) :
    (load_factor t > t.max_load_factor →
      check_load_and_rehash cfg false t = rehash cfg false t (t.buckets.length * 2))
    ∧ (rehash cfg false t (t.buckets.length * 2)).buckets.length = t.buckets.length * 2
    ∧ (∀ j, (rehash cfg false t (t.buckets.length * 2)).buckets.getD j .empty ≠ .deleted)
    ∧ (∀ i (k : Key) (v : Val), i < t.buckets.length →
        t.buckets.getD i .empty = .occupied (k, v) →
        findEntry cfg (rehash cfg false t (t.buckets.length * 2)) k = some (k, v)) := by
  refine ⟨fun hgt => by rw [check_load_and_rehash, if_pos hgt],
    rehash_length cfg false t _, ?_, ?_⟩
  · intro j
    rw [rehash]
    exact rehashFold_no_deleted cfg false t.buckets _
      (noDeleted_replicate (t.buckets.length * 2)) j
  · intro i k v hi hocc
    have hmem : (k, v) ∈ occupiedEntries t.buckets :=
      (occupiedEntries_mem_iff _ _).mpr ⟨i, hi, hocc⟩
    have hall := rehashFold_find_all cfg hb hc t.buckets.length t.buckets
      { buckets := List.replicate (t.buckets.length * 2) .empty, size := 0,
        max_load_factor := t.max_load_factor }
      (by
        show countOccupied (List.replicate (t.buckets.length * 2)
            (Bucket.empty : Bucket (Key × Val))) + countOccupied t.buckets
          ≤ t.buckets.length
        rw [countOccupied_replicate_empty]
        simpa [countOccupied] using List.countP_le_length
          (Bucket.is_occupied (ν := Key × Val)) (l := t.buckets))
      (by
        show t.buckets.length
          < (List.replicate (t.buckets.length * 2) (Bucket.empty : Bucket (Key × Val))).length
        rw [List.length_replicate]
        omega)
      (noDeleted_replicate (t.buckets.length * 2))
      (by
        show ∀ e1 ∈ occupiedEntries (List.replicate (t.buckets.length * 2)
            (Bucket.empty : Bucket (Key × Val))),
          ∀ e2 ∈ occupiedEntries t.buckets, ¬ e1.1 = e2.1
        rw [occupiedEntries_replicate_empty]
        intro e1 h1
        simp at h1)
      hpw
      (by
        show ∀ e1 ∈ occupiedEntries (List.replicate (t.buckets.length * 2)
            (Bucket.empty : Bucket (Key × Val))), _
        rw [occupiedEntries_replicate_empty]
        intro e1 h1
        simp at h1)
      (k, v) (Or.inr hmem)
    obtain ⟨hlt2, hget2⟩ := hall
    have hR : rehash cfg false t (t.buckets.length * 2)
        = t.buckets.foldl (rehashStep cfg false)
          { buckets := List.replicate (t.buckets.length * 2) .empty, size := 0,
            max_load_factor := t.max_load_factor } := by rw [rehash]
    have hlt3 : find_index cfg (rehash cfg false t (t.buckets.length * 2)) k
        < (rehash cfg false t (t.buckets.length * 2)).buckets.length := by
      rw [find_index, hR]
      exact hlt2
    have hget3 : (rehash cfg false t (t.buckets.length * 2)).buckets.getD
        (find_index cfg (rehash cfg false t (t.buckets.length * 2)) k) .empty
        = .occupied (k, v) := by
      rw [find_index, hR]
      exact hget2
    rw [findEntry, find]
    rw [if_neg (by
      push_neg
      refine ⟨Nat.ne_of_lt hlt3, ?_⟩
      rw [hget3]
      simp [Bucket.is_occupied])]
    show (match (rehash cfg false t (t.buckets.length * 2)).buckets.getD
        (find_index cfg (rehash cfg false t (t.buckets.length * 2)) k) .empty with
      | Bucket.occupied e => some e
      | _ => none) = some (k, v)
    simp only [hget3]

/-- C4 witness: a capacity-4 table holding `(0, 1)` and `(1, 2)` plus a
tombstone; after growth to capacity 8 both entries are findable. -/
theorem C4_witness :
    (rehash linearCfg false (Table.mk [Bucket.occupied ((0 : Nat), (1 : Nat)),
        Bucket.occupied ((1 : Nat), (2 : Nat)), Bucket.deleted, Bucket.empty] 2
        (mkRat 3 4))
      ((Table.mk [Bucket.occupied ((0 : Nat), (1 : Nat)),
        Bucket.occupied ((1 : Nat), (2 : Nat)), Bucket.deleted, Bucket.empty] 2
        (mkRat 3 4)).buckets.length * 2)).buckets.length
      = (Table.mk [Bucket.occupied ((0 : Nat), (1 : Nat)),
        Bucket.occupied ((1 : Nat), (2 : Nat)), Bucket.deleted, Bucket.empty] 2
        (mkRat 3 4)).buckets.length * 2
    ∧ findEntry linearCfg (rehash linearCfg false
        (Table.mk [Bucket.occupied ((0 : Nat), (1 : Nat)),
          Bucket.occupied ((1 : Nat), (2 : Nat)), Bucket.deleted, Bucket.empty] 2
          (mkRat 3 4))
        ((Table.mk [Bucket.occupied ((0 : Nat), (1 : Nat)),
          Bucket.occupied ((1 : Nat), (2 : Nat)), Bucket.deleted, Bucket.empty] 2
          (mkRat 3 4)).buckets.length * 2)) 0 = some (0, 1) :=
  ⟨(C4_growth linearCfg (Table.mk [Bucket.occupied ((0 : Nat), (1 : Nat)),
      Bucket.occupied ((1 : Nat), (2 : Nat)), Bucket.deleted, Bucket.empty] 2
      (mkRat 3 4)) linearCfg_bounded linearCfg_cover (by decide) (by decide)).2.1,
    (C4_growth linearCfg (Table.mk [Bucket.occupied ((0 : Nat), (1 : Nat)),
      Bucket.occupied ((1 : Nat), (2 : Nat)), Bucket.deleted, Bucket.empty] 2
      (mkRat 3 4)) linearCfg_bounded linearCfg_cover (by decide) (by decide)).2.2.2
      0 0 1 (by decide) (by decide)⟩


/-! ### Counting entries through slot writes -/

theorem countP_set_exchange {α : Type} (P : α → Bool) :
    ∀ (l : List α) (p : Nat) (x d : α), p < l.length →
      (l.set p x).countP P + (if P (l.getD p d) then 1 else 0)
        = l.countP P + (if P x then 1 else 0)
  | [], p, x, d, hp => by simp at hp
  | a :: l, 0, x, d, _ => by
    simp only [List.set_cons_zero, List.countP_cons, List.getD_cons_zero]
    omega
  | a :: l, p + 1, x, d, hp => by
    have ih := countP_set_exchange P l p x d (by simpa using hp)
    simp only [List.set_cons_succ, List.countP_cons, List.getD_cons_succ]
    omega

/-! ### Duplicate-mode rehash preserves all key multiplicities -/

theorem rehashFold_dup_count {Key Val : Type} [DecidableEq Key] (cfg : HashConfig Key)
    (hb : ProbeBounded cfg) (hc : ProbeCover cfg) (B n : Nat) :
    ∀ (l : List (Bucket (Key × Val))) (acc : Table Key Val),
      acc.buckets.length = n →
      countOccupied acc.buckets + countOccupied l ≤ B →
      B < n →
      (l.foldl (rehashStep cfg true) acc).buckets.length = n
      ∧ countOccupied ((l.foldl (rehashStep cfg true) acc).buckets)
          = countOccupied acc.buckets + countOccupied l
      ∧ (l.foldl (rehashStep cfg true) acc).size = acc.size + countOccupied l
      ∧ ∀ k : Key, ((l.foldl (rehashStep cfg true) acc).buckets).countP (occKeyB k)
          = (acc.buckets).countP (occKeyB k) + l.countP (occKeyB k)
  | [], acc, hlen, _, _ => by
    refine ⟨hlen, ?_, ?_, ?_⟩ <;> simp [countOccupied]
  | b :: l, acc, hlen, hroom, hB => by
    rw [List.foldl_cons]
    rcases b with _ | e0 | _
    · have hstep : rehashStep cfg true acc Bucket.empty = acc := rfl
      rw [hstep]
      have hoc : countOccupied (Bucket.empty :: l) = countOccupied l := by
        simp [countOccupied, List.countP_cons, Bucket.is_occupied]
      rw [hoc] at hroom
      obtain ⟨c1, c2, c3, c4⟩ := rehashFold_dup_count cfg hb hc B n l acc hlen hroom hB
      refine ⟨c1, by rw [c2, hoc], by rw [c3, hoc], fun k => ?_⟩
      rw [c4 k]
      simp [List.countP_cons, occKeyB]
    · obtain ⟨k0, v0⟩ := e0
      have hoc : countOccupied (Bucket.occupied (k0, v0) :: l) = countOccupied l + 1 := by
        simp [countOccupied, List.countP_cons, Bucket.is_occupied]
      rw [hoc] at hroom
      have h0 : 0 < acc.buckets.length := by omega
      have hoccl : countOccupied acc.buckets < acc.buckets.length := by omega
      obtain ⟨p, hp⟩ := probe_insert_success cfg true acc.buckets k0 (cfg.hash k0)
        hb hc h0 (exists_not_occupied _ hoccl) (Or.inl rfl)
      have hstep : rehashStep cfg true acc (Bucket.occupied (k0, v0))
          = { acc with
              buckets := acc.buckets.set p (.occupied (k0, v0)),
              size := acc.size + 1 } := by
        simp only [rehashStep]
        rw [hp]
      rw [hstep]
      have hp2 := hp
      rw [probe_insert_slot] at hp2
      have htgt := probeInsertGo_target cfg true acc.buckets k0 (cfg.hash k0)
        acc.buckets.length (List.range acc.buckets.length) acc.buckets.length p
        (fun hcc => absurd rfl hcc)
        (fun a _ => hb k0 (cfg.hash k0) a acc.buckets.length h0) hp2
      have hpltN : p < acc.buckets.length := htgt.2
      have hnotocc : (acc.buckets.getD p .empty).is_occupied = false := by
        rcases htgt.1 with hh | hh <;> rw [hh] <;> rfl
      have hlenN : (acc.buckets.set p (Bucket.occupied (k0, v0))).length
          = acc.buckets.length := List.length_set _ _ _
      have hcntN : countOccupied (acc.buckets.set p (Bucket.occupied (k0, v0)))
          = countOccupied acc.buckets + 1 :=
        countOccupied_set_occupied _ _ _ hpltN hnotocc
      obtain ⟨c1, c2, c3, c4⟩ := rehashFold_dup_count cfg hb hc B n l
        { acc with
          buckets := acc.buckets.set p (Bucket.occupied (k0, v0)),
          size := acc.size + 1 }
        (by
          show (acc.buckets.set p (Bucket.occupied (k0, v0))).length = n
          rw [hlenN, hlen])
        (by
          show countOccupied (acc.buckets.set p (Bucket.occupied (k0, v0)))
              + countOccupied l ≤ B
          rw [hcntN]
          omega)
        hB
      refine ⟨c1, ?_, ?_, fun k => ?_⟩
      · rw [c2]
        show countOccupied (acc.buckets.set p (Bucket.occupied (k0, v0)))
            + countOccupied l = countOccupied acc.buckets + countOccupied (Bucket.occupied (k0, v0) :: l)
        rw [hcntN, hoc]
        omega
      · rw [c3]
        show acc.size + 1 + countOccupied l = acc.size + countOccupied (Bucket.occupied (k0, v0) :: l)
        rw [hoc]
        omega
      · rw [c4 k]
        have hex := countP_set_exchange (occKeyB k) acc.buckets p
          (Bucket.occupied (k0, v0)) Bucket.empty hpltN
        have hoold : occKeyB k (acc.buckets.getD p Bucket.empty) = false := by
          rcases htgt.1 with hh | hh <;> rw [hh] <;> rfl
        rw [hoold] at hex
        show (acc.buckets.set p (Bucket.occupied (k0, v0))).countP (occKeyB k)
            + List.countP (occKeyB k) l
          = acc.buckets.countP (occKeyB k)
            + (Bucket.occupied (k0, v0) :: l).countP (occKeyB k)
        rw [List.countP_cons]
        cases hkk : occKeyB k (Bucket.occupied (k0, v0)) <;>
          simp [hkk] at hex ⊢ <;> omega
    · have hstep : rehashStep cfg true acc Bucket.deleted = acc := rfl
      rw [hstep]
      have hoc : countOccupied (Bucket.deleted :: l) = countOccupied l := by
        simp [countOccupied, List.countP_cons, Bucket.is_occupied]
      rw [hoc] at hroom
      obtain ⟨c1, c2, c3, c4⟩ := rehashFold_dup_count cfg hb hc B n l acc hlen hroom hB
      refine ⟨c1, by rw [c2, hoc], by rw [c3, hoc], fun k => ?_⟩
      rw [c4 k]
      simp [List.countP_cons, occKeyB]

/-! ### The growth check in duplicate mode -/

theorem mkRat_lt_one_imp (a b : Nat) (hb : 0 < b) (h : mkRat a b < 1) : a < b := by
  rw [Rat.mkRat_eq_div] at h
  rw [div_lt_one (by exact_mod_cast hb)] at h
  exact_mod_cast h

theorem check_dup_inv {Key Val : Type} [DecidableEq Key] (cfg : HashConfig Key)
    (hb : ProbeBounded cfg) (hc : ProbeCover cfg) (t : Table Key Val)
    (hlen : 0 < t.buckets.length)
    (hsz : t.size = countOccupied t.buckets)
    (hml : t.max_load_factor < 1) :
    0 < (check_load_and_rehash cfg true t).buckets.length
    ∧ (check_load_and_rehash cfg true t).size
        = countOccupied (check_load_and_rehash cfg true t).buckets
    ∧ countOccupied (check_load_and_rehash cfg true t).buckets
        < (check_load_and_rehash cfg true t).buckets.length
    ∧ (check_load_and_rehash cfg true t).max_load_factor = t.max_load_factor
    ∧ ∀ k : Key, ((check_load_and_rehash cfg true t).buckets).countP (occKeyB k)
        = (t.buckets).countP (occKeyB k) := by
  rw [check_load_and_rehash]
  by_cases hgt : load_factor t > t.max_load_factor
  · rw [if_pos hgt]
    have hcnt : countOccupied t.buckets ≤ t.buckets.length := List.countP_le_length _
    have hfold := rehashFold_dup_count cfg hb hc t.buckets.length
      (t.buckets.length * 2) t.buckets
      { buckets := List.replicate (t.buckets.length * 2) .empty, size := 0,
        max_load_factor := t.max_load_factor }
      (by
        show (List.replicate (t.buckets.length * 2)
            (Bucket.empty : Bucket (Key × Val))).length = t.buckets.length * 2
        rw [List.length_replicate])
      (by
        show countOccupied (List.replicate (t.buckets.length * 2)
            (Bucket.empty : Bucket (Key × Val))) + countOccupied t.buckets
          ≤ t.buckets.length
        rw [countOccupied_replicate_empty]
        omega)
      (by omega)
    obtain ⟨c1, c2, c3, c4⟩ := hfold
    have hR : rehash cfg true t (t.buckets.length * 2)
        = t.buckets.foldl (rehashStep cfg true)
          { buckets := List.replicate (t.buckets.length * 2) .empty, size := 0,
            max_load_factor := t.max_load_factor } := by rw [rehash]
    rw [hR]
    have hcz : countOccupied (List.replicate (t.buckets.length * 2)
        (Bucket.empty : Bucket (Key × Val))) = 0 := countOccupied_replicate_empty _
    refine ⟨by rw [c1]; omega, ?_, ?_, ?_, fun k => ?_⟩
    · rw [c2, c3]
      show 0 + countOccupied t.buckets
        = countOccupied (List.replicate (t.buckets.length * 2)
            (Bucket.empty : Bucket (Key × Val))) + countOccupied t.buckets
      rw [hcz]
    · rw [c2, c1]
      show countOccupied (List.replicate (t.buckets.length * 2)
            (Bucket.empty : Bucket (Key × Val))) + countOccupied t.buckets
          < t.buckets.length * 2
      rw [hcz]
      omega
    · rw [← hR, rehash_mlf]
    · rw [c4 k]
      show (List.replicate (t.buckets.length * 2)
          (Bucket.empty : Bucket (Key × Val))).countP (occKeyB k)
          + t.buckets.countP (occKeyB k)
        = t.buckets.countP (occKeyB k)
      rw [List.countP_eq_zero.mpr (by
        intro b hbm
        rw [List.eq_of_mem_replicate hbm]
        simp [occKeyB])]
      omega
  · rw [if_neg hgt]
    have hload : load_factor t ≤ t.max_load_factor := le_of_not_lt hgt
    have hlf : load_factor t = mkRat t.size t.buckets.length := by
      rw [load_factor, if_neg (by
        rw [List.isEmpty_iff]
        exact List.length_pos.mp hlen)]
    have hszlt : t.size < t.buckets.length := by
      refine mkRat_lt_one_imp _ _ hlen ?_
      rw [← hlf]
      exact lt_of_le_of_lt hload hml
    exact ⟨hlen, hsz, by omega, rfl, fun k => rfl⟩


/-! ### Duplicate-mode counting through insert and erase -/

theorem count_dup_eq {Key Val : Type} [DecidableEq Key] (cfg : HashConfig Key)
    (t : Table Key Val) (k : Key) :
    count cfg true t k = t.buckets.countP (occKeyB k) := by
  rw [count, if_pos rfl]
  rfl

theorem insert_dup_step {Key Val : Type} [DecidableEq Key] (cfg : HashConfig Key)
    (hb : ProbeBounded cfg) (hc : ProbeCover cfg) (t : Table Key Val) (k0 : Key) (v0 : Val)
    (hlen : 0 < t.buckets.length)
    (hsz : t.size = countOccupied t.buckets)
    (hml : t.max_load_factor < 1) :
    0 < (insert cfg true t k0 v0).1.buckets.length
    ∧ (insert cfg true t k0 v0).1.size = countOccupied (insert cfg true t k0 v0).1.buckets
    ∧ (insert cfg true t k0 v0).1.max_load_factor = t.max_load_factor
    ∧ ∀ k : Key, ((insert cfg true t k0 v0).1.buckets).countP (occKeyB k)
        = (t.buckets).countP (occKeyB k) + (if k0 = k then 1 else 0) := by
  obtain ⟨h1, h2, h3, h4, h5⟩ := check_dup_inv cfg hb hc t hlen hsz hml
  set t1 := check_load_and_rehash cfg true t with ht1
  obtain ⟨p, hp⟩ := probe_insert_success cfg true t1.buckets k0 (cfg.hash k0)
    hb hc h1 (exists_not_occupied _ h3) (Or.inl rfl)
  have hp2 := hp
  rw [probe_insert_slot] at hp2
  have htgt := probeInsertGo_target cfg true t1.buckets k0 (cfg.hash k0)
    t1.buckets.length (List.range t1.buckets.length) t1.buckets.length p
    (fun hcc => absurd rfl hcc)
    (fun a _ => hb k0 (cfg.hash k0) a t1.buckets.length h1) hp2
  have hpltN : p < t1.buckets.length := htgt.2
  have hins : insert cfg true t k0 v0
      = ({ t1 with
            buckets := t1.buckets.set p (.occupied (k0, v0)),
            size := t1.size + 1 }, p, true) := by
    simp only [insert, ← ht1, hp]
    rw [if_neg (Nat.ne_of_lt hpltN), if_pos trivial]
  have hnotocc : (t1.buckets.getD p .empty).is_occupied = false := by
    rcases htgt.1 with hh | hh <;> rw [hh] <;> rfl
  have hlenN : (t1.buckets.set p (Bucket.occupied (k0, v0))).length
      = t1.buckets.length := List.length_set _ _ _
  have hcntN : countOccupied (t1.buckets.set p (Bucket.occupied (k0, v0)))
      = countOccupied t1.buckets + 1 :=
    countOccupied_set_occupied _ _ _ hpltN hnotocc
  rw [hins]
  refine ⟨?_, ?_, ?_, fun k => ?_⟩
  · show 0 < (t1.buckets.set p (Bucket.occupied (k0, v0))).length
    rw [hlenN]
    exact h1
  · show t1.size + 1 = countOccupied (t1.buckets.set p (Bucket.occupied (k0, v0)))
    rw [hcntN, h2]
  · exact h4
  · show (t1.buckets.set p (Bucket.occupied (k0, v0))).countP (occKeyB k)
        = t.buckets.countP (occKeyB k) + (if k0 = k then 1 else 0)
    have hex := countP_set_exchange (occKeyB k) t1.buckets p
      (Bucket.occupied (k0, v0)) Bucket.empty hpltN
    have hoold : occKeyB k (t1.buckets.getD p Bucket.empty) = false := by
      rcases htgt.1 with hh | hh <;> rw [hh] <;> rfl
    rw [hoold] at hex
    rw [← h5 k]
    have hone : occKeyB k (Bucket.occupied (k0, v0)) = decide (k0 = k) := rfl
    rw [hone] at hex
    by_cases hkk : k0 = k
    · rw [if_pos hkk]
      rw [decide_eq_true hkk] at hex
      have hz : (if (false : Bool) = true then (1 : Nat) else 0) = 0 := rfl
      have ho : (if (true : Bool) = true then (1 : Nat) else 0) = 1 := rfl
      rw [hz, ho] at hex
      omega
    · rw [if_neg hkk]
      rw [decide_eq_false hkk] at hex
      have hz : (if (false : Bool) = true then (1 : Nat) else 0) = 0 := rfl
      rw [hz] at hex
      omega

theorem erase_dup_step {Key Val : Type} [DecidableEq Key] (cfg : HashConfig Key)
    (hb : ProbeBounded cfg) (t : Table Key Val) (k0 : Key)
    (hlen : 0 < t.buckets.length)
    (hsz : t.size = countOccupied t.buckets) :
    0 < (erase cfg t k0).1.buckets.length
    ∧ (erase cfg t k0).1.size = countOccupied (erase cfg t k0).1.buckets
    ∧ (erase cfg t k0).1.max_load_factor = t.max_load_factor
    ∧ ∀ k : Key, ¬ k0 = k →
        ((erase cfg t k0).1.buckets).countP (occKeyB k) = (t.buckets).countP (occKeyB k) := by
  by_cases hg : find_index cfg t k0 = t.buckets.length
      ∨ (t.buckets.getD (find_index cfg t k0) .empty).is_occupied = false
  · have he : erase cfg t k0 = (t, 0) := by
      simp only [erase]
      rw [if_pos hg]
    rw [he]
    exact ⟨hlen, hsz, rfl, fun _ _ => rfl⟩
  · have he : erase cfg t k0
        = ({ t with
              buckets := t.buckets.set (find_index cfg t k0) .deleted,
              size := t.size - 1 }, 1) := by
      simp only [erase]
      rw [if_neg hg]
    push_neg at hg
    obtain ⟨hne, _⟩ := hg
    have hfi : find_index cfg t k0
        = findIndexGo cfg t.buckets k0 (cfg.hash k0) t.buckets.length
            (List.range t.buckets.length) := by
      rw [find_index, find_index_bs,
        if_neg (by rw [List.isEmpty_iff]; exact List.length_pos.mp hlen)]
    obtain ⟨⟨e, hge, hek⟩, hplt⟩ := findIndexGo_found cfg t.buckets k0 (cfg.hash k0)
      t.buckets.length (List.range t.buckets.length) (find_index cfg t k0)
      (fun a _ => hb k0 (cfg.hash k0) a t.buckets.length hlen)
      hfi.symm hne
    rw [he]
    have hexO := countP_set_exchange Bucket.is_occupied t.buckets
      (find_index cfg t k0) Bucket.deleted Bucket.empty hplt
    rw [hge] at hexO
    simp [Bucket.is_occupied] at hexO
    refine ⟨?_, ?_, ?_, fun k hkk => ?_⟩
    · show 0 < (t.buckets.set (find_index cfg t k0) Bucket.deleted).length
      rw [List.length_set]
      exact hlen
    · show t.size - 1 = countOccupied (t.buckets.set (find_index cfg t k0) Bucket.deleted)
      rw [hsz]
      rw [countOccupied, countOccupied]
      omega
    · rfl
    · show (t.buckets.set (find_index cfg t k0) Bucket.deleted).countP (occKeyB k)
          = t.buckets.countP (occKeyB k)
      have hexK := countP_set_exchange (occKeyB k) t.buckets
        (find_index cfg t k0) Bucket.deleted Bucket.empty hplt
      rw [hge] at hexK
      have hekk : occKeyB k (Bucket.occupied e) = false := by
        simp [occKeyB, hek, hkk]
      rw [hekk] at hexK
      simp [occKeyB] at hexK
      exact hexK

theorem runOps_dup_count {Key Val : Type} [DecidableEq Key] (cfg : HashConfig Key)
    (hb : ProbeBounded cfg) (hc : ProbeCover cfg) (k : Key) :
    ∀ (ops : List (Op Key Val)) (t : Table Key Val),
      0 < t.buckets.length → t.size = countOccupied t.buckets →
      t.max_load_factor < 1 →
      (∀ op ∈ ops, ∀ k2, op = Op.del k2 → ¬ k2 = k) →
      0 < (runOps cfg true t ops).buckets.length
      ∧ (runOps cfg true t ops).size = countOccupied (runOps cfg true t ops).buckets
      ∧ (runOps cfg true t ops).max_load_factor < 1
      ∧ ((runOps cfg true t ops).buckets).countP (occKeyB k)
          = (t.buckets).countP (occKeyB k) + insCount k ops
  | [], t, h1, h2, h3, _ => by
    refine ⟨h1, h2, h3, ?_⟩
    simp [runOps, insCount]
  | Op.ins k0 v0 :: ops, t, h1, h2, h3, hdel => by
    obtain ⟨s1, s2, s3, s4⟩ := insert_dup_step cfg hb hc t k0 v0 h1 h2 h3
    obtain ⟨i1, i2, i3, i4⟩ := runOps_dup_count cfg hb hc k ops
      (insert cfg true t k0 v0).1 s1 s2 (by rw [s3]; exact h3)
      (fun op hop k2 hd => hdel op (by simp [hop]) k2 hd)
    have hr : runOps cfg true t (Op.ins k0 v0 :: ops)
        = runOps cfg true (insert cfg true t k0 v0).1 ops := rfl
    rw [hr]
    refine ⟨i1, i2, i3, ?_⟩
    rw [i4, s4 k]
    have hic : insCount k (Op.ins k0 v0 :: ops)
        = insCount k ops + (if k0 = k then 1 else 0) := by
      by_cases hkk : k0 = k
      · rw [if_pos hkk, insCount, List.countP_cons]
        simp [hkk]
        rfl
      · rw [if_neg hkk, insCount, List.countP_cons]
        simp [hkk]
        rfl
    rw [hic]
    omega
  | Op.del k0 :: ops, t, h1, h2, h3, hdel => by
    have hk0 : ¬ k0 = k := hdel (Op.del k0) (by simp) k0 rfl
    obtain ⟨s1, s2, s3, s4⟩ := erase_dup_step cfg hb t k0 h1 h2
    obtain ⟨i1, i2, i3, i4⟩ := runOps_dup_count cfg hb hc k ops
      (erase cfg t k0).1 s1 s2 (by rw [s3]; exact h3)
      (fun op hop k2 hd => hdel op (by simp [hop]) k2 hd)
    have hr : runOps cfg true t (Op.del k0 :: ops)
        = runOps cfg true (erase cfg t k0).1 ops := rfl
    rw [hr]
    refine ⟨i1, i2, i3, ?_⟩
    rw [i4, s4 k hk0]
    have hic : insCount k (Op.del k0 :: ops) = insCount k ops := by
      rw [insCount, List.countP_cons]
      simp
      rfl

    rw [hic]

/-- C2: as stated the claim is false: in duplicates mode `equal_range`
only walks forward from the first found entry while consecutive live slots
hold an equal key, so a second entry of the key separated by an entry of a
different key is not enumerated.  Concretely with linear probing on
capacity 8, after inserting 1 → 10, 2 → 20 and 1 → 12 the table holds two
entries for key 1 and `count(1) = 2`, yet `equal_range(1)` enumerates only
one entry. -/
theorem C2_counterexample :
    count linearCfg true
        (runOps linearCfg true (mkTable Nat Nat 8)
          [Op.ins 1 10, Op.ins 2 20, Op.ins 1 12]) 1 = 2
    ∧ (equal_range_entries linearCfg true
        (runOps linearCfg true (mkTable Nat Nat 8)
          [Op.ins 1 10, Op.ins 2 20, Op.ins 1 12]) 1).length = 1 := by
  decide

/-- C2 (amended): in duplicates mode, with a bounded covering probe
strategy and a table whose size field counts its occupied slots and whose
threshold is below 1, running any operation sequence with no erase of key
`k` raises `count(k)` by exactly the number of insertions of `k` (so `n`
inserts of `k` into a fresh table give `count(k) = n`); the `equal_range`
half of the original claim is dropped. -/
theorem C2_amended {Key Val : Type} [DecidableEq Key] (cfg : HashConfig Key)
    (hb : ProbeBounded cfg) (hc : ProbeCover cfg) (t : Table Key Val)
    (ops : List (Op Key Val)) (k : Key)
    (h1 : 0 < t.buckets.length) (h2 : t.size = countOccupied t.buckets)
    (h3 : t.max_load_factor < 1)
    (hdel : ∀ op ∈ ops, ∀ k2, op = Op.del k2 → ¬ k2 = k) :
    count cfg true (runOps cfg true t ops) k = count cfg true t k + insCount k ops := by
  rw [count_dup_eq, count_dup_eq]
  exact (runOps_dup_count cfg hb hc k ops t h1 h2 h3 hdel).2.2.2

/-- Witness for the amended C2 at a concrete input. -/
theorem C2_witness :
    count linearCfg true
        (runOps linearCfg true (mkTable Nat Nat 4)
          [Op.ins 1 10, Op.ins 2 20, Op.ins 1 12, Op.del 2]) 1
      = count linearCfg true (mkTable Nat Nat 4) 1
        + insCount 1 [Op.ins 1 10, Op.ins 2 20, Op.ins 1 12, Op.del 2] :=
  C2_amended linearCfg linearCfg_bounded linearCfg_cover (mkTable Nat Nat 4)
    [Op.ins 1 10, Op.ins 2 20, Op.ins 1 12, Op.del 2] 1
    (by decide) (by decide) (by decide)
    (by
      intro op hop k2 hd
      simp only [List.mem_cons, List.not_mem_nil, or_false] at hop
      rcases hop with rfl | rfl | rfl | rfl <;> simp at hd
      omega)


end OpenAddr
